import Mathlib

set_option autoImplicit false

/-!
# MemoraBot file-editing core: a shallow embedding

This file embeds the file-editing and content-placement engine of the
MemoraBot repository (`app/utils.py`, `app/tools.py`) as executable Lean
definitions, and proves properties of those definitions.

Python strings are modelled as Lean `String` (a list of unicode scalar
values, matching Python's sequence-of-code-points view); Python byte
lengths of UTF-8 encoded text are modelled with `String.utf8ByteSize`.
Python `str.lower` is modelled on the ASCII range (the only range the
properties below depend on).  The filesystem under the storage root is
modelled as an association list from (bucket, filename) keys to file
contents; `datetime.now()` timestamps are threaded as an explicit `ts`
argument.  Error messages raised as Python `ValueError` /
`FileNotFoundError` are classified into the error taxonomy of the
specification (`NotFound`, `AlreadyExists`, `InvalidArgument`); result
strings are modelled as an `Outcome` value carrying the data the
corresponding Python f-string interpolates.
-/

namespace MemoraBot

/-! ## Python string primitives -/

/-- Python `str.lower`, restricted to ASCII case folding. -/
def pyLowerChar (c : Char) : Char :=
  if 'A' ≤ c && c ≤ 'Z' then Char.ofNat (c.toNat + 32) else c

/-- `s.lower()` on a whole string. -/
def pyLower (s : String) : String := String.mk (s.data.map pyLowerChar)

/-- Python `s.strip(chars)` on a character list: drop the longest run of
characters satisfying `p` from both ends. -/
def stripSet (p : Char → Bool) (l : List Char) : List Char :=
  ((l.dropWhile p).reverse.dropWhile p).reverse

/-- Python `s.split(sep)` for a one-character separator, on character
lists (`"".split(sep) == [""]`, separators at the ends produce empty
pieces). -/
def splitOnCharAux (sep : Char) : List Char → List Char → List (List Char)
  | [], acc => [acc.reverse]
  | c :: t, acc =>
    if c = sep then acc.reverse :: splitOnCharAux sep t []
    else splitOnCharAux sep t (c :: acc)

/-- `s.split(sep)` for a one-character separator. -/
def splitOnChar (sep : Char) (l : List Char) : List (List Char) :=
  splitOnCharAux sep l []

/-- `s.split(sep)` at the `String` level. -/
def splitStr (sep : Char) (s : String) : List String :=
  (splitOnChar sep s.data).map String.mk

/-- `sep.join(pieces)` for a one-character separator. -/
def joinSep (sep : Char) : List (List Char) → List Char
  | [] => []
  | [x] => x
  | x :: y :: xs => x ++ sep :: joinSep sep (y :: xs)

/-- `sep.join(pieces)` at the `String` level. -/
def joinStr (sep : Char) (ls : List String) : String :=
  String.mk (joinSep sep (ls.map String.data))

/-- Python `s[:k]` on a character list, honouring Python's negative-index
slicing (`s[:-n]` drops the last `n` characters). -/
def pySliceTo (l : List Char) (k : Int) : List Char :=
  if 0 ≤ k then l.take k.toNat else l.take ((l.length : Int) + k).toNat

/-- Python `s.rsplit('.', 1)` when it yields two parts: `some (name, ext)`
splits at the last `'.'`; `none` means the string has no `'.'`. -/
def rsplitDot : List Char → Option (List Char × List Char)
  | [] => none
  | c :: t =>
    match rsplitDot t with
    | some (n, e) => some (c :: n, e)
    | none => if c = '.' then some ([], t) else none

/-- Python substring containment `needle in hay` (character lists). -/
def containsSub (hay needle : List Char) : Bool :=
  match hay with
  | [] => needle.isEmpty
  | _ :: t => needle.isPrefixOf hay || containsSub t needle

/-- `marker in line` at the `String` level. -/
def strContains (line marker : String) : Bool :=
  containsSub line.data marker.data

/-- The index of the first list element satisfying `p`, if any. -/
def firstIdx (p : String → Bool) : List String → Option Nat
  | [] => none
  | l :: t => if p l then some 0 else (firstIdx p t).map (· + 1)

/-- Python `content.replace(old, new)` for a non-empty `old`, with
explicit fuel (`fuel ≥ hay.length` makes the fuel irrelevant): scan left
to right, replacing every non-overlapping occurrence. -/
def pyReplaceAux (old new : List Char) : Nat → List Char → List Char
  | 0, hay => hay
  | _ + 1, [] => []
  | fuel + 1, c :: t =>
    if old.isPrefixOf (c :: t) then new ++ pyReplaceAux old new fuel ((c :: t).drop old.length)
    else c :: pyReplaceAux old new fuel t

/-- Python `content.replace(old, new)`: the empty `old` interleaves `new`
around every character, as CPython does. -/
def pyReplaceList (hay old new : List Char) : List Char :=
  if old = [] then new ++ (hay.map (fun c => c :: new)).flatten
  else pyReplaceAux old new hay.length hay

/-- `content.replace(old, new)` at the `String` level. -/
def pyReplace (s old new : String) : String :=
  String.mk (pyReplaceList s.data old.data new.data)

/-- Python `f.readlines()` on UTF-8 text: split after every `'\n'`,
keeping the newline on each piece; an empty file yields no lines. -/
def pyReadlinesAux : List Char → List Char → List (List Char)
  | [], acc => if acc = [] then [] else [acc.reverse]
  | c :: t, acc =>
    if c = '\n' then (acc.reverse ++ ['\n']) :: pyReadlinesAux t []
    else pyReadlinesAux t (c :: acc)

/-- `f.readlines()` at the `String` level. -/
def pyReadlines (s : String) : List String :=
  (pyReadlinesAux s.data []).map String.mk

/-- Python `line.rstrip('\n')`. -/
def rstripNewline (s : String) : String :=
  String.mk ((s.data.reverse.dropWhile (fun c => c = '\n')).reverse)

/-- Python `''.join(lines)`. -/
def joinAll (ls : List String) : String :=
  String.mk ((ls.map String.data).flatten)

/-! ## `app/utils.py`: name sanitizers and file-type check -/

/-- Characters admitted by the bucket-name regex `[a-z0-9_-]`. -/
def isBucketChar (c : Char) : Bool :=
  ('a' ≤ c && c ≤ 'z') || ('0' ≤ c && c ≤ '9') || c = '_' || c = '-'

/-- `sanitize_bucket_name`: lowercase, spaces to `_`, remove everything
outside `[a-z0-9_-]`, strip leading/trailing `-`/`_`, fall back to
`"default"` when empty. -/
def sanitize_bucket_name (bucket : String) : String :=
  let b1 := bucket.data.map pyLowerChar
  let b2 := b1.map (fun c => if c = ' ' then '_' else c)
  let b3 := b2.filter isBucketChar
  let b4 := stripSet (fun c => c = '-' || c = '_') b3
  if b4 = [] then "default" else String.mk b4

/-- Characters replaced by `_` in `sanitize_filename` (the regex set
`[<>:"/\|?*]`). -/
def isInvalidFileChar (c : Char) : Bool :=
  c = '<' || c = '>' || c = ':' || c = '"' || c = '/' ||
  c = '\\' || c = '|' || c = '?' || c = '*'

/-- The length-limiting step of `sanitize_filename` (`utils.py` lines
27–35): when over 255 characters, truncate preserving the last `.ext`
when one exists; Python's negative slice semantics apply to
`name[:255 - len(ext) - 1]` when the extension itself is close to or
beyond the cap. -/
def truncate255 (f2 : List Char) : List Char :=
  if f2.length > 255 then
    match rsplitDot f2 with
    | some (name, ext) => pySliceTo name (255 - (ext.length : Int) - 1) ++ '.' :: ext
    | none => f2.take 255
  else f2

/-- `sanitize_filename(filename)`: replace invalid characters by `_`,
strip leading/trailing `'.'`/`' '`, apply the length limit, and fall
back to `"file_" ++ ts` (the `datetime.now()` timestamp) when empty. -/
def sanitize_filename (ts : String) (filename : String) : String :=
  let f1 := filename.data.map (fun c => if isInvalidFileChar c then '_' else c)
  let f2 := stripSet (fun c => c = '.' || c = ' ') f1
  let f3 := truncate255 f2
  if f3 = [] then "file_" ++ ts else String.mk f3

/-- Guard of the amended length-cap statement: the extension part at the
last dot of the substituted-and-stripped name, when present, has at most
254 characters. -/
def extLenOk (filename : String) : Bool :=
  match rsplitDot (stripSet (fun c => c = '.' || c = ' ')
      (filename.data.map (fun c => if isInvalidFileChar c then '_' else c))) with
  | none => true
  | some (_, ext) => ext.length ≤ 254

/-- `pathlib.PurePosixPath(filename).name`: the last component of the
path, after dropping empty and `"."` components. -/
def pathName (filename : String) : String :=
  ((splitStr '/' filename).filter (fun c => c ≠ "" && c ≠ ".")).getLastD ""

/-- `PurePosixPath(filename).suffix`: the `.ext` part of the final
component (empty when the only dot is leading or trailing). -/
def pathSuffix (filename : String) : String :=
  match rsplitDot (pathName filename).data with
  | some (n, e) => if 0 < n.length && e ≠ [] then String.mk ('.' :: e) else ""
  | none => ""

/-! ## `app/config.py`: settings -/

/-- The fields of `app/config.py`'s `Settings` the core consumes. -/
structure Settings where
  MAX_FILE_SIZE_MB : Nat
  ALLOWED_FILE_TYPES : String
deriving DecidableEq

/-- `Settings.max_file_size_bytes`. -/
def Settings.maxFileSizeBytes (st : Settings) : Nat :=
  st.MAX_FILE_SIZE_MB * 1024 * 1024

/-- The default configuration values of `app/config.py`. -/
def defaultSettings : Settings :=
  { MAX_FILE_SIZE_MB := 10, ALLOWED_FILE_TYPES := ".txt,.md,.json,.yaml" }

/-- `is_allowed_file_type(filename, settings)`: the lowercased extension
is in the comma-separated allow-list, or the file has no extension. -/
def is_allowed_file_type (st : Settings) (filename : String) : Bool :=
  let extension := pyLower (pathSuffix filename)
  let allowed := splitStr ',' st.ALLOWED_FILE_TYPES
  allowed.contains extension || extension = ""

/-! ## The filesystem model and `app/tools.py` primitives -/

/-- A resolved location under the storage root: sanitized bucket name and
sanitized filename. -/
abbrev BucketKey := String × String

/-- The tree under the storage root, as an association list from resolved
locations to file contents. -/
abbrev FS := List (BucketKey × String)

/-- Look a file up at a resolved location. -/
def FS.get (fs : FS) (k : BucketKey) : Option String :=
  (fs.find? (fun e => e.1 = k)).map (·.2)

/-- Create or replace the file at a resolved location. -/
def FS.set (fs : FS) (k : BucketKey) (v : String) : FS :=
  (k, v) :: fs.filter (fun e => e.1 ≠ k)

/-- `FileTools._get_file_path`: both names go through the sanitizers. -/
def fileKey (ts bucket filename : String) : BucketKey :=
  (sanitize_bucket_name bucket, sanitize_filename ts filename)

/-- The specification's error taxonomy for the `ValueError` /
`FileNotFoundError` exceptions the tools raise. -/
inductive FileError
  | notFound
  | alreadyExists
  | invalidArgument
deriving DecidableEq

/-- The data interpolated into the result strings of the tools. -/
inductive Outcome where
  | created (bucket filename : String) (chars : Nat)
  | overwrote (bucket filename : String) (chars : Nat)
  | createdByAppend (bucket filename : String) (chars : Nat)
  | appendedChars (chars : Nat) (bucket filename : String)
  | editReplaced (bucket filename : String)
  | noMatches (searchText bucket filename : String)
  | insertedAt (position : String) (lineNumber : Int) (bucket filename : String)
  | sectionReplaced (startMarker endMarker bucket filename : String)
  | startMarkerNotFound (marker bucket filename : String)
  | endMarkerNotFound (marker bucket filename : String)
  | duplicateRefusal (lineNum : Nat) (lineText : String) (similarity : ℚ)
  | smartAppended (reason bucket filename : String)
  | createdBySmartAppend (bucket filename : String) (chars : Nat)
deriving DecidableEq

/-- `FileTools.read_file`: `FileNotFoundError` when absent, otherwise the
full text. -/
def read_file (ts : String) (fs : FS) (bucket filename : String) :
    Except FileError String :=
  match fs.get (fileKey ts bucket filename) with
  | none => .error .notFound
  | some c => .ok c

/-- `FileTools.write_file`: extension allow-list check, UTF-8 size check,
existence/overwrite check, then write.  The Python code computes the
`"Overwrote"`/`"Created"` action string after the write, when
`file_path.exists()` is already true, so the action only reflects the
`overwrite` flag. -/
def write_file (st : Settings) (ts : String) (fs : FS)
    (bucket filename content : String) (overwrite : Bool) :
    Except FileError (FS × Outcome) :=
  if !(is_allowed_file_type st filename) then .error .invalidArgument
  else if content.utf8ByteSize > st.maxFileSizeBytes then .error .invalidArgument
  else
    let k := fileKey ts bucket filename
    if (fs.get k).isSome && !overwrite then .error .alreadyExists
    else
      .ok (fs.set k content,
        if overwrite then .overwrote bucket filename content.length
        else .created bucket filename content.length)

/-- `FileTools.append_file`: extension check, then a size check on
`existing + separator (if the file exists) + new content`, then create or
append. -/
def append_file (st : Settings) (ts : String) (fs : FS)
    (bucket filename content separator : String) :
    Except FileError (FS × Outcome) :=
  if !(is_allowed_file_type st filename) then .error .invalidArgument
  else
    let k := fileKey ts bucket filename
    let existing := fs.get k
    let existingSize := (existing.getD "").utf8ByteSize
    let sepBytes := if existing.isSome then separator.utf8ByteSize else 0
    if existingSize + sepBytes + content.utf8ByteSize > st.maxFileSizeBytes then
      .error .invalidArgument
    else
      match existing with
      | none => .ok (fs.set k content, .createdByAppend bucket filename content.length)
      | some old =>
        .ok (fs.set k (old ++ separator ++ content),
          .appendedChars content.length bucket filename)

/-- `FileTools.edit_file_lines`: literal global replacement via
`content.replace`; when the replacement leaves the content unchanged a
"no matches" result is returned without writing; otherwise the modified
content is size-checked and written back. -/
def edit_file_lines (st : Settings) (ts : String) (fs : FS)
    (bucket filename searchText replacementText : String) :
    Except FileError (FS × Outcome) :=
  let k := fileKey ts bucket filename
  match fs.get k with
  | none => .error .notFound
  | some content =>
    let modified := pyReplace content searchText replacementText
    if modified = content then
      .ok (fs, .noMatches searchText bucket filename)
    else if modified.utf8ByteSize > st.maxFileSizeBytes then .error .invalidArgument
    else .ok (fs.set k modified, .editReplaced bucket filename)

/-- `FileTools.insert_at_line`: position enum check, 1-based range check
against `readlines()`, then insert before/after or replace the target
line (the new text always gains a trailing `'\n'`), size check, write. -/
def insert_at_line (st : Settings) (ts : String) (fs : FS)
    (bucket filename : String) (lineNumber : Int) (text : String)
    (position : String) : Except FileError (FS × Outcome) :=
  let k := fileKey ts bucket filename
  match fs.get k with
  | none => .error .notFound
  | some content =>
    if !(position = "before" || position = "after" || position = "replace") then
      .error .invalidArgument
    else
      let lines := pyReadlines content
      let targetIndex := lineNumber - 1
      if targetIndex < 0 || targetIndex ≥ (lines.length : Int) then
        .error .invalidArgument
      else
        let i := targetIndex.toNat
        let newLines :=
          if position = "before" then lines.insertIdx i (text ++ "\n")
          else if position = "after" then lines.insertIdx (i + 1) (text ++ "\n")
          else lines.set i (text ++ "\n")
        let modified := joinAll newLines
        if modified.utf8ByteSize > st.maxFileSizeBytes then .error .invalidArgument
        else .ok (fs.set k modified, .insertedAt position lineNumber bucket filename)

/-- The marker scan of `FileTools.replace_section` (`tools.py` lines
677–686): walk the lines once; the first line containing `start_marker`
opens the section, and the first later line containing `end_marker`
closes it (a line is never both, because of the `elif`). -/
def scanMarkers (startM endM : String) : List String → Nat → Option Nat →
    Option Nat × Option Nat
  | [], _, sIdx => (sIdx, none)
  | l :: ls, i, sIdx =>
    if strContains l startM && sIdx.isNone then
      scanMarkers startM endM ls (i + 1) (some i)
    else if strContains l endM && sIdx.isSome then (sIdx, some i)
    else scanMarkers startM endM ls (i + 1) sIdx

/-- The pure core of `FileTools.replace_section` (`tools.py` lines
677–696): locate the markers and splice
`lines[:start_idx+1] + [new_content] + lines[end_idx:]`.  `none` results
model the soft "marker not found" messages. -/
def replaceSectionLines (lines : List String)
    (startMarker endMarker newContent : String) : Option (List String) :=
  match scanMarkers startMarker endMarker lines 0 none with
  | (none, _) => none
  | (some _, none) => none
  | (some s, some e) => some (lines.take (s + 1) ++ [newContent] ++ lines.drop e)

/-- Decidable equality of operation results, for concrete evaluation. -/
instance {ε α : Type} [DecidableEq ε] [DecidableEq α] :
    DecidableEq (Except ε α) := fun a b =>
  match a, b with
  | .ok x, .ok y =>
    if h : x = y then .isTrue (by rw [h]) else .isFalse (by simp [h])
  | .error x, .error y =>
    if h : x = y then .isTrue (by rw [h]) else .isFalse (by simp [h])
  | .ok _, .error _ => .isFalse (by simp)
  | .error _, .ok _ => .isFalse (by simp)

/-! ## `difflib.SequenceMatcher` (as used by `find_similar_lines`)

`SequenceMatcher(None, a, b).ratio()` for string arguments: the
similarity scores, computed by CPython as binary64 floats, are modelled
as exact rationals. -/

/-- The positions of `c` in the list, in ascending order (the `b2j`
table before the autojunk pass). -/
def positionsAux (c : Char) : List Char → Nat → List Nat
  | [], _ => []
  | x :: xs, j =>
    if x = c then j :: positionsAux c xs (j + 1) else positionsAux c xs (j + 1)

/-- `b2j` with CPython's autojunk rule: when `len(b) ≥ 200`, characters
occurring more than `len(b) // 100 + 1` times are dropped from the
table. -/
def b2j (b : List Char) (c : Char) : List Nat :=
  let idxs := positionsAux c b 0
  if b.length ≥ 200 && idxs.length > b.length / 100 + 1 then [] else idxs

/-- `a[i]` with the out-of-range fallback never reached by the guarded
accesses below. -/
def charAt (l : List Char) (i : Nat) : Char := l.getD i (Char.ofNat 0)

/-- One row of `find_longest_match`'s dynamic program: walk the
positions of `a[i]` in `b` (ascending, `continue` below `blo`, `break`
at `bhi`), building the new run-length row and updating the best match
`(besti, bestj, bestsize)`. -/
def flmInner (blo bhi : Nat) (j2len : Nat → Nat) (i : Nat) :
    List Nat → (Nat → Nat) → Nat × Nat × Nat → (Nat → Nat) × (Nat × Nat × Nat)
  | [], newj2len, best => (newj2len, best)
  | j :: js, newj2len, best =>
    if j < blo then flmInner blo bhi j2len i js newj2len best
    else if j ≥ bhi then (newj2len, best)
    else
      let k := (if j = 0 then 0 else j2len (j - 1)) + 1
      let newj2len' := fun x => if x = j then k else newj2len x
      let best' := if k > best.2.2 then (i + 1 - k, j + 1 - k, k) else best
      flmInner blo bhi j2len i js newj2len' best'

/-- The row loop of `find_longest_match` over `a[alo:ahi]`, starting
each row from an empty `newj2len`. -/
def flmOuter (bj : Char → List Nat) (blo bhi : Nat) :
    List Char → Nat → (Nat → Nat) → Nat × Nat × Nat → Nat × Nat × Nat
  | [], _, _, best => best
  | c :: rest, i, j2len, best =>
    let step := flmInner blo bhi j2len i (bj c) (fun _ => 0) best
    flmOuter bj blo bhi rest (i + 1) step.1 step.2

/-- The left extension loop of `find_longest_match` (no junk, so the
only condition is equality); fuel bounds the iteration count by the
initial `besti`. -/
def extendLeft (a b : List Char) (alo blo : Nat) :
    Nat → Nat × Nat × Nat → Nat × Nat × Nat
  | 0, best => best
  | fuel + 1, (besti, bestj, bestsize) =>
    if alo < besti && blo < bestj && (charAt a (besti - 1) = charAt b (bestj - 1)) then
      extendLeft a b alo blo fuel (besti - 1, bestj - 1, bestsize + 1)
    else (besti, bestj, bestsize)

/-- The right extension loop of `find_longest_match`. -/
def extendRight (a b : List Char) (ahi bhi : Nat) :
    Nat → Nat × Nat × Nat → Nat × Nat × Nat
  | 0, best => best
  | fuel + 1, (besti, bestj, bestsize) =>
    if besti + bestsize < ahi && bestj + bestsize < bhi &&
        (charAt a (besti + bestsize) = charAt b (bestj + bestsize)) then
      extendRight a b ahi bhi fuel (besti, bestj, bestsize + 1)
    else (besti, bestj, bestsize)

/-- `SequenceMatcher.find_longest_match` for `isjunk = None`: the
dynamic program over `b2j` (with autojunk), then extension by equal
characters on both ends (the junk-extension loops are no-ops because
`bjunk` is empty). -/
def findLongestMatch (a b : List Char) (alo ahi blo bhi : Nat) : Nat × Nat × Nat :=
  let best0 := flmOuter (b2j b) blo bhi ((a.take ahi).drop alo) alo (fun _ => 0) (alo, blo, 0)
  let best1 := extendLeft a b alo blo best0.1 best0
  extendRight a b ahi bhi (ahi + bhi) best1

/-- The total size `M` of `get_matching_blocks`: recurse on both sides
of each longest match; the fuel bounds the recursion depth (every level
strictly shrinks the ranges). -/
def matchingBlocksSum (a b : List Char) : Nat → Nat × Nat × Nat × Nat → Nat
  | 0, _ => 0
  | fuel + 1, (alo, ahi, blo, bhi) =>
    let m := findLongestMatch a b alo ahi blo bhi
    if m.2.2 = 0 then 0
    else
      matchingBlocksSum a b fuel (alo, m.1, blo, m.2.1) + m.2.2 +
        matchingBlocksSum a b fuel (m.1 + m.2.2, ahi, m.2.1 + m.2.2, bhi)

/-- `SequenceMatcher.ratio()`: `2 * M / T`, and `1` when both sequences
are empty. -/
def ratioQ (a b : List Char) : ℚ :=
  let M := matchingBlocksSum a b (a.length + b.length + 1) (0, a.length, 0, b.length)
  let T := a.length + b.length
  if T = 0 then 1 else 2 * (M : ℚ) / (T : ℚ)

/-- The run length ending at cell `(i - 1, j)` of the dynamic program of
`find_longest_match` on identical sequences: the `j2len` value the scan
of the first `i` rows assigns to column `j`. -/
def rlRow (s : List Char) : Nat → Nat → Nat
  | 0, _ => 0
  | i + 1, j =>
    if j ∈ b2j s (charAt s i) then
      (if j = 0 then 0 else rlRow s i (j - 1)) + 1
    else 0

/-- The collection loop of `find_similar_lines`: 1-based enumeration,
keeping lines whose similarity to the target reaches the threshold. -/
def collectSimilar (targetText : String) (threshold : ℚ) :
    List String → Nat → List (Nat × String × ℚ)
  | [], _ => []
  | l :: ls, i =>
    let sim := ratioQ (pyLower targetText).data (pyLower l).data
    if sim ≥ threshold then (i, l, sim) :: collectSimilar targetText threshold ls (i + 1)
    else collectSimilar targetText threshold ls (i + 1)

/-- Stable insertion into a descending-by-score list (an earlier element
goes before later elements of equal score). -/
def insertByScore (x : Nat × String × ℚ) :
    List (Nat × String × ℚ) → List (Nat × String × ℚ)
  | [] => [x]
  | y :: ys => if y.2.2 > x.2.2 then y :: insertByScore x ys else x :: y :: ys

/-- Stable sort, descending by score — the observable behaviour of
Python's stable `sorted(..., key=score, reverse=True)`. -/
def sortByScoreDesc : List (Nat × String × ℚ) → List (Nat × String × ℚ)
  | [] => []
  | x :: xs => insertByScore x (sortByScoreDesc xs)

/-- `find_similar_lines(content, target_text, threshold)`. -/
def find_similar_lines (content targetText : String) (threshold : ℚ) :
    List (Nat × String × ℚ) :=
  sortByScoreDesc (collectSimilar targetText threshold (splitStr '\n' content) 1)

/-! ## `app/utils.py`: placement heuristics -/

/-- Python `\s` (ASCII range) as used by `str.strip()` and the list
patterns. -/
def isPySpaceChar (c : Char) : Bool :=
  c = ' ' || c = '\t' || c = '\n' || c = '\r' || c = '\x0b' || c = '\x0c'

/-- `line.strip() == ""`. -/
def isBlankLine (s : String) : Bool :=
  stripSet isPySpaceChar s.data = []

/-- ASCII digit. -/
def isDigitChar (c : Char) : Bool := '0' ≤ c && c ≤ '9'

/-- `re.match(r'^\s*[-*+]\s', line)`. -/
def matchesBullet (l : List Char) : Bool :=
  match l.dropWhile isPySpaceChar with
  | c :: d :: _ => (c = '-' || c = '*' || c = '+') && isPySpaceChar d
  | _ => false

/-- `re.match(r'^\s*\d+\.\s', line)`. -/
def matchesNumbered (l : List Char) : Bool :=
  let rest := l.dropWhile isPySpaceChar
  (rest.takeWhile isDigitChar ≠ []) &&
  (match rest.dropWhile isDigitChar with
   | '.' :: d :: _ => isPySpaceChar d
   | _ => false)

/-- `re.match(r'^\s*•\s', line)`. -/
def matchesDotBullet (l : List Char) : Bool :=
  match l.dropWhile isPySpaceChar with
  | c :: d :: _ => c = '•' && isPySpaceChar d
  | _ => false

/-- The first of the three list patterns matching the line, if any
(mirroring the inner `for pattern in list_patterns` loop). -/
def firstListPattern (l : List Char) : Option (List Char → Bool) :=
  if matchesBullet l then some matchesBullet
  else if matchesNumbered l then some matchesNumbered
  else if matchesDotBullet l then some matchesDotBullet
  else none

/-- The outer loop of `_find_list_insertion_point`: the first line
matching a list pattern, with that pattern. -/
def listOuterScan : List String → Nat → Option (Nat × (List Char → Bool))
  | [], _ => none
  | l :: t, i =>
    match firstListPattern l.data with
    | some p => some (i, p)
    | none => listOuterScan t (i + 1)

/-- The inner loop of `_find_list_insertion_point`: from line `j` on,
the first line that is blank or no longer matches the pattern. -/
def listInnerScan (p : List Char → Bool) : List String → Nat → Option Nat
  | [], _ => none
  | l :: t, j =>
    if isBlankLine l || !(p l.data) then some j else listInnerScan p t (j + 1)

/-- `_find_list_insertion_point`. -/
def _find_list_insertion_point (lines : List String) (newContent : String) :
    Nat × String :=
  match listOuterScan lines 0 with
  | some (i, p) =>
    match listInnerScan p (lines.drop (i + 1)) (i + 1) with
    | some j => (j, "Added to existing list after line " ++ toString (i + 1))
    | none => (lines.length, "Added to end of list")
  | none => (lines.length, "Added as new list at end of file")

/-- The keyword test of `_find_task_insertion_point`. -/
def taskLine (l : String) : Bool :=
  strContains (pyLower l) "todo" || strContains (pyLower l) "task" ||
  strContains (pyLower l) "- [ ]" || strContains (pyLower l) "- [x]"

/-- `_find_task_insertion_point`. -/
def _find_task_insertion_point (lines : List String) (newContent : String) :
    Nat × String :=
  match lines.findIdx? taskLine with
  | some i => (i + 1, "Added after task section at line " ++ toString (i + 1))
  | none => (lines.length, "Added as new task section")

/-- The bottom-up loop of `_find_note_insertion_point`, scanning indices
`m - 1, m - 2, …, 0` for a blank line. -/
def noteScanMsg (lines : List String) : Nat → Nat × String
  | 0 => (lines.length, "Added to end of file")
  | i + 1 =>
    if isBlankLine (lines.getD i "") then
      (i + 1, "Added after empty line " ++ toString (i + 1))
    else noteScanMsg lines i

/-- `_find_note_insertion_point`: insertion immediately after the last
blank line, else end of file. -/
def _find_note_insertion_point (lines : List String) (newContent : String) :
    Nat × String :=
  noteScanMsg lines lines.length

/-- `_find_default_insertion_point`. -/
def _find_default_insertion_point (lines : List String) (newContent : String) :
    Nat × String :=
  (lines.length, "Added to end of file")

/-- `smart_content_placement`: dispatch on the content-type hint, with
unknown or missing hints falling back to the default strategy. -/
def smart_content_placement (existingContent newContent : String)
    (contentTypeHint : Option String) : Nat × String :=
  let lines := splitStr '\n' existingContent
  match contentTypeHint with
  | some "list" => _find_list_insertion_point lines newContent
  | some "task" => _find_task_insertion_point lines newContent
  | some "note" => _find_note_insertion_point lines newContent
  | _ => _find_default_insertion_point lines newContent

/-- `FileTools.smart_append`: read the existing content (empty when the
file does not exist); with `avoid_duplicates` and non-empty existing
content, refuse when any existing line is at least `0.8`-similar to the
new content (reporting the best-scoring line); otherwise splice the new
content at the heuristic insertion line (appending at end-of-file when
the index reaches the line count), or create the file with the content
as its whole body; a single size check guards the write. -/
def smart_append (st : Settings) (ts : String) (fs : FS)
    (bucket filename content : String) (sectionHint : Option String)
    (avoidDuplicates : Bool) : Except FileError (FS × Outcome) :=
  let k := fileKey ts bucket filename
  let existingContent := (fs.get k).getD ""
  match (if avoidDuplicates && existingContent ≠ "" then
      find_similar_lines existingContent content (4 / 5) else []) with
  | (lineNum, lineText, similarity) :: _ =>
    .ok (fs, .duplicateRefusal lineNum lineText similarity)
  | [] =>
    let pr :=
      if existingContent ≠ "" then
        let ir := smart_content_placement existingContent content sectionHint
        let lines := splitStr '\n' existingContent
        let modified :=
          if ir.1 ≥ lines.length then
            if existingContent ≠ "" && !(existingContent.endsWith "\n") then
              existingContent ++ "\n" ++ content
            else existingContent ++ content
          else joinStr '\n' (lines.insertIdx ir.1 content)
        (modified, Outcome.smartAppended ir.2 bucket filename)
      else (content, Outcome.createdBySmartAppend bucket filename content.length)
    if pr.1.utf8ByteSize > st.maxFileSizeBytes then .error .invalidArgument
    else .ok (fs.set k pr.1, pr.2)

/-- The shape of a `readlines()` result: every line but the last ends in
`'\n'` and contains no other newline; the last line is either of that
shape or a non-empty newline-free tail. -/
inductive LinesShape : List (List Char) → Prop
  | nil : LinesShape []
  | final (l : List Char) (hne : l ≠ []) (hnl : ∀ c ∈ l, c ≠ '\n') : LinesShape [l]
  | mid (core : List Char) (tail : List (List Char)) (hnl : ∀ c ∈ core, c ≠ '\n')
      (ht : LinesShape tail) : LinesShape ((core ++ ['\n']) :: tail)

/-! ## Concrete instances used in witnesses and counterexamples -/

/-- A fixed `datetime.now().strftime('%Y%m%d_%H%M%S')` value. -/
def ts0 : String := "20250101_000000"

/-- A file content of `n` ASCII bytes. -/
def bigA (n : Nat) : String := String.mk (List.replicate n 'a')

/-- A 304-character filename with a short extension. -/
def longName : String :=
  String.mk (List.replicate 300 'x' ++ ('.' :: 't' :: 'x' :: 't' :: []))

/-- A filename whose extension part alone has 300 characters. -/
def overLongExt : String := String.mk ('a' :: '.' :: List.replicate 300 'x')

end MemoraBot


/-! # Theorems -/

namespace MemoraBot

/-! ## C1: bucket-name sanitization is filesystem-safe -/

lemma stripSet_sublist (p : Char → Bool) (l : List Char) :
    (stripSet p l).Sublist l := by
  have h1 : (l.dropWhile p).Sublist l := List.dropWhile_sublist _
  have h2 : ((l.dropWhile p).reverse.dropWhile p).Sublist (l.dropWhile p).reverse :=
    List.dropWhile_sublist _
  have h3 : ((l.dropWhile p).reverse.dropWhile p).reverse.Sublist
      (l.dropWhile p).reverse.reverse := List.Sublist.reverse h2
  simpa using h3.trans (by simpa using h1)

lemma sanitize_bucket_name_chars (bucket : String) :
    ∀ c ∈ (sanitize_bucket_name bucket).data, isBucketChar c = true := by
  intro c hc
  simp only [sanitize_bucket_name] at hc
  split at hc
  · have hall : ∀ x ∈ ("default" : String).data, isBucketChar x = true := by decide
    exact hall c hc
  · have hsub := stripSet_sublist (fun c => c = '-' || c = '_')
      ((List.map (fun c => if c = ' ' then '_' else c)
        (List.map pyLowerChar bucket.data)).filter isBucketChar)
    exact (List.mem_filter.mp (hsub.mem hc)).2

/-- C1: every character of `sanitize_bucket_name`'s output lies in
`[a-z0-9_-]` (hence is not `/`, `\`, or `.`), and the output is never
empty: the empty result falls back to `"default"`. -/
theorem sanitize_bucket_name_safe (bucket : String) :
    ((sanitize_bucket_name bucket).data.all
      (fun c => isBucketChar c && c ≠ '/' && c ≠ '\\' && c ≠ '.')) = true ∧
    0 < (sanitize_bucket_name bucket).length := by
  constructor
  · rw [List.all_eq_true]
    intro c hc
    have hbc := sanitize_bucket_name_chars bucket c hc
    have h1 : c ≠ '/' := by intro h; subst h; exact absurd hbc (by decide)
    have h2 : c ≠ '\\' := by intro h; subst h; exact absurd hbc (by decide)
    have h3 : c ≠ '.' := by intro h; subst h; exact absurd hbc (by decide)
    simp [hbc, h1, h2, h3]
  · simp only [sanitize_bucket_name]
    split
    · decide
    · next h =>
      have hlen : (String.mk (stripSet (fun c => c = '-' || c = '_')
          ((List.map (fun c => if c = ' ' then '_' else c)
            (List.map pyLowerChar bucket.data)).filter isBucketChar))).length
          = (stripSet (fun c => c = '-' || c = '_')
          ((List.map (fun c => if c = ' ' then '_' else c)
            (List.map pyLowerChar bucket.data)).filter isBucketChar)).length := rfl
      rw [hlen]
      exact List.length_pos.mpr h

/-! ## Filesystem store lemmas -/

lemma FS.get_set_self (fs : FS) (k : BucketKey) (v : String) :
    (fs.set k v).get k = some v := by
  simp [FS.get, FS.set]

lemma find?_filter_ne (fs : FS) (k k' : BucketKey) (h : k' ≠ k) :
    (fs.filter (fun e => e.1 ≠ k)).find? (fun e => e.1 = k') =
      fs.find? (fun e => e.1 = k') := by
  induction fs with
  | nil => rfl
  | cons e t ih =>
    by_cases he : e.1 = k
    · rw [List.filter_cons_of_neg (by simp [he]),
        List.find?_cons_of_neg _ (by simp [he]; exact fun hh => h hh.symm)]
      exact ih
    · rw [List.filter_cons_of_pos (by simp [he])]
      by_cases hk' : e.1 = k'
      · rw [List.find?_cons_of_pos _ (by simp [hk']),
          List.find?_cons_of_pos _ (by simp [hk'])]
      · rw [List.find?_cons_of_neg _ (by simp [hk']),
          List.find?_cons_of_neg _ (by simp [hk'])]
        exact ih

lemma FS.get_set_ne (fs : FS) (k k' : BucketKey) (v : String) (h : k' ≠ k) :
    (fs.set k v).get k' = fs.get k' := by
  simp only [FS.get, FS.set]
  rw [List.find?_cons_of_neg _ (by simp; exact fun hh => h hh.symm),
    find?_filter_ne fs k k' h]

lemma bigA_utf8ByteSize (n : Nat) : (bigA n).utf8ByteSize = n := by
  induction n with
  | zero => rfl
  | succ m ih =>
    have : bigA (m + 1) = String.mk ('a' :: List.replicate m 'a') := by
      simp [bigA, List.replicate]
    rw [this]
    have hc : (String.mk ('a' :: List.replicate m 'a')).utf8ByteSize
        = 'a'.utf8Size + (String.mk (List.replicate m 'a')).utf8ByteSize := by
      simp [String.utf8ByteSize]
      omega
    have hone : 'a'.utf8Size = 1 := by decide
    have ih' : (String.mk (List.replicate m 'a')).utf8ByteSize = m := ih
    rw [hc, ih', hone]
    omega

/-! ## C2: write/read round-trip -/

/-- C2: if `write_file(b, f, C, overwrite := false)` succeeds, then
`read_file(b, f)` on the resulting store returns exactly `C` — both
calls resolve `b` and `f` through the same sanitizers. -/
theorem write_then_read_roundtrip (st : Settings) (ts : String) (fs : FS)
    (b f C : String) (fs' : FS) (out : Outcome)
    (h : write_file st ts fs b f C false = .ok (fs', out)) :
    read_file ts fs' b f = .ok C := by
  simp only [write_file] at h
  split at h
  · exact absurd h (by simp)
  · split at h
    · exact absurd h (by simp)
    · split at h
      · exact absurd h (by simp)
      · simp only [Except.ok.injEq, Prod.mk.injEq] at h
        obtain ⟨⟨hfs, _⟩, _⟩ := And.intro h trivial
        subst hfs
        simp [read_file, FS.get_set_self]

/-- C2 witness: the scenario of spec §8 — bucket `"Shopping List!"`,
file `"groceries.txt"`. -/
theorem write_then_read_roundtrip_witness :
    read_file ts0 (FS.set [] (fileKey ts0 "Shopping List!" "groceries.txt") "milk")
      "Shopping List!" "groceries.txt" = .ok "milk" :=
  write_then_read_roundtrip defaultSettings ts0 [] "Shopping List!" "groceries.txt"
    "milk" (FS.set [] (fileKey ts0 "Shopping List!" "groceries.txt") "milk")
    (.created "Shopping List!" "groceries.txt" 4) (by decide)

/-! ## C3: writing twice without overwrite -/

/-- C3 (amended): after a successful `write_file(b, f, C1, overwrite :=
false)`, a second `write_file(b, f, C2, overwrite := false)` whose
content passes the size ceiling fails with `AlreadyExists`, and the
stored content is unchanged (the error is raised before any write). -/
theorem write_twice_alreadyExists (st : Settings) (ts : String) (fs : FS)
    (b f C1 C2 : String) (fs' : FS) (out : Outcome)
    (h : write_file st ts fs b f C1 false = .ok (fs', out))
    (hsize : C2.utf8ByteSize ≤ st.maxFileSizeBytes) :
    write_file st ts fs' b f C2 false = .error .alreadyExists ∧
    read_file ts fs' b f = .ok C1 := by
  simp only [write_file] at h
  split at h
  · exact absurd h (by simp)
  · next hallowed =>
    split at h
    · exact absurd h (by simp)
    · split at h
      · exact absurd h (by simp)
      · simp only [Except.ok.injEq, Prod.mk.injEq] at h
        obtain ⟨⟨hfs, _⟩, _⟩ := And.intro h trivial
        subst hfs
        refine ⟨?_, by simp [read_file, FS.get_set_self]⟩
        simp only [write_file]
        rw [if_neg hallowed, if_neg (by omega)]
        rw [if_pos (by simp [FS.get_set_self])]

/-- C3 witness: a concrete store where the amended statement applies. -/
theorem write_twice_alreadyExists_witness :
    write_file defaultSettings ts0 (FS.set [] (fileKey ts0 "b" "n.txt") "one")
      "b" "n.txt" "two" false = .error .alreadyExists ∧
    read_file ts0 (FS.set [] (fileKey ts0 "b" "n.txt") "one") "b" "n.txt" = .ok "one" :=
  write_twice_alreadyExists defaultSettings ts0 [] "b" "n.txt" "one" "two"
    (FS.set [] (fileKey ts0 "b" "n.txt") "one") (.created "b" "n.txt" 3)
    (by decide) (by decide)

/-- C3 counterexample: the claim as stated quantifies over every `C2`.
With a `C2` one byte above the configured ceiling, the second call
raises the size-limit `InvalidArgument` error, not `AlreadyExists`. -/
theorem write_twice_oversize_counterexample :
    write_file defaultSettings ts0 [] "b" "a.txt" "hi" false =
      .ok (FS.set [] (fileKey ts0 "b" "a.txt") "hi", .created "b" "a.txt" 2) ∧
    write_file defaultSettings ts0 (FS.set [] (fileKey ts0 "b" "a.txt") "hi")
      "b" "a.txt" (bigA 10485761) false = .error .invalidArgument ∧
    FileError.invalidArgument ≠ FileError.alreadyExists := by
  refine ⟨by decide, ?_, by decide⟩
  simp only [write_file]
  rw [if_neg (by decide)]
  rw [if_pos (by rw [bigA_utf8ByteSize]; decide)]

/-! ## C5: literal global substring replacement -/

lemma containsSub_nil_needle (hay : List Char) : containsSub hay [] = true := by
  cases hay <;> simp [containsSub, List.isPrefixOf]

lemma pyReplaceAux_of_not_contains (old new : List Char) (fuel : Nat) :
    ∀ hay : List Char, containsSub hay old = false →
      pyReplaceAux old new fuel hay = hay := by
  induction fuel with
  | zero => intro hay _; rfl
  | succ n ih =>
    intro hay h
    cases hay with
    | nil => rfl
    | cons c t =>
      simp only [containsSub, Bool.or_eq_false_iff] at h
      simp only [pyReplaceAux]
      rw [if_neg (by simp [h.1]), ih t h.2]

lemma pyReplace_of_not_contains (s old new : String)
    (h : containsSub s.data old.data = false) : pyReplace s old new = s := by
  have hold : ¬ (old.data = []) := by
    intro he
    rw [he, containsSub_nil_needle] at h
    cases h
  simp only [pyReplace, pyReplaceList]
  rw [if_neg hold, pyReplaceAux_of_not_contains old.data new.data s.data.length s.data h]

lemma bigA_length (n : Nat) : (bigA n).length = n := by
  simp [bigA, String.length]

/-- C5 (amended): `edit_file_lines` performs literal global substring
replacement.  If the content contains an occurrence of `searchText` and
the replaced content passes the size ceiling, the stored content
afterwards is exactly `content.replace(searchText, replacementText)`
(all occurrences replaced); if it contains no occurrence, a "no matches
found" result is returned and the store is unchanged. -/
theorem edit_file_lines_global_replace (st : Settings) (ts : String) (fs : FS)
    (b f s r content : String)
    (hread : fs.get (fileKey ts b f) = some content)
    (hsize : (pyReplace content s r).utf8ByteSize ≤ st.maxFileSizeBytes) :
    (containsSub content.data s.data = true →
      ∃ fs' out, edit_file_lines st ts fs b f s r = .ok (fs', out) ∧
        fs'.get (fileKey ts b f) = some (pyReplace content s r)) ∧
    (containsSub content.data s.data = false →
      edit_file_lines st ts fs b f s r = .ok (fs, .noMatches s b f) ∧
      fs.get (fileKey ts b f) = some content) := by
  constructor
  · intro _
    simp only [edit_file_lines, hread]
    by_cases hm : pyReplace content s r = content
    · rw [if_pos hm]
      exact ⟨fs, .noMatches s b f, rfl, by rw [← hm] at hread; exact hread⟩
    · rw [if_neg hm, if_neg (by omega)]
      exact ⟨_, _, rfl, FS.get_set_self fs (fileKey ts b f) (pyReplace content s r)⟩
  · intro hc
    have hm := pyReplace_of_not_contains content s r hc
    simp only [edit_file_lines, hread]
    rw [if_pos hm]
    exact ⟨rfl, trivial⟩

/-- C5 witness: `"foo foo baz"` with search `"foo"`, replacement `"bar"`
replaces both occurrences; search `"zap"` reports no matches and leaves
the store unchanged. -/
theorem edit_file_lines_witness :
    (∃ fs' out, edit_file_lines defaultSettings ts0
        (FS.set [] (fileKey ts0 "b" "a.txt") "foo foo baz") "b" "a.txt" "foo" "bar" =
        .ok (fs', out) ∧
        fs'.get (fileKey ts0 "b" "a.txt") = some (pyReplace "foo foo baz" "foo" "bar")) ∧
    pyReplace "foo foo baz" "foo" "bar" = "bar bar baz" ∧
    (edit_file_lines defaultSettings ts0
        (FS.set [] (fileKey ts0 "b" "a.txt") "foo foo baz") "b" "a.txt" "zap" "bar" =
        .ok (FS.set [] (fileKey ts0 "b" "a.txt") "foo foo baz", .noMatches "zap" "b" "a.txt")) :=
  ⟨(edit_file_lines_global_replace defaultSettings ts0
      (FS.set [] (fileKey ts0 "b" "a.txt") "foo foo baz") "b" "a.txt" "foo" "bar"
      "foo foo baz" (by decide) (by decide)).1 (by decide),
   by decide,
   ((edit_file_lines_global_replace defaultSettings ts0
      (FS.set [] (fileKey ts0 "b" "a.txt") "foo foo baz") "b" "a.txt" "zap" "bar"
      "foo foo baz" (by decide) (by decide)).2 (by decide)).1⟩

lemma pyReplace_foo_self (r : String) : pyReplace "foo" "foo" r = r := by
  have h : pyReplace "foo" "foo" r = String.mk (r.data ++ []) := rfl
  rw [h, List.append_nil]

/-- C5 counterexample: the claim as stated quantifies over every
replacement text.  On a file containing `"foo"`, replacing `"foo"` by a
string one byte above the configured ceiling raises the size-limit
`InvalidArgument` error and performs no replacement. -/
theorem edit_file_lines_oversize_counterexample :
    containsSub "foo".data "foo".data = true ∧
    edit_file_lines defaultSettings ts0 (FS.set [] (fileKey ts0 "b" "a.txt") "foo")
      "b" "a.txt" "foo" (bigA 10485761) = .error .invalidArgument := by
  refine ⟨by decide, ?_⟩
  simp only [edit_file_lines, FS.get_set_self]
  rw [pyReplace_foo_self]
  rw [if_neg (by
    intro he
    have := congrArg String.length he
    rw [bigA_length] at this
    simp [String.length] at this)]
  rw [if_pos (by rw [bigA_utf8ByteSize]; decide)]

/-! ## C7: insert_at_line validation and replace semantics -/

lemma pyReadlinesAux_no_newline (core : List Char) :
    ∀ acc : List Char, (∀ c ∈ core, c ≠ '\n') →
      pyReadlinesAux core acc =
        if acc.reverse ++ core = [] then [] else [acc.reverse ++ core] := by
  induction core with
  | nil =>
    intro acc _
    simp only [pyReadlinesAux, List.append_nil]
    by_cases h : acc = []
    · simp [h]
    · rw [if_neg h, if_neg (by simp [h])]
  | cons c t ih =>
    intro acc h
    have hc : c ≠ '\n' := h c (by simp)
    simp only [pyReadlinesAux]
    rw [if_neg hc, ih (c :: acc) (fun x hx => h x (by simp [hx]))]
    have hrw : (c :: acc).reverse ++ t = acc.reverse ++ c :: t := by
      simp
    rw [hrw]

lemma pyReadlinesAux_split (core : List Char) :
    ∀ (rest acc : List Char), (∀ c ∈ core, c ≠ '\n') →
      pyReadlinesAux (core ++ '\n' :: rest) acc =
        (acc.reverse ++ core ++ ['\n']) :: pyReadlinesAux rest [] := by
  induction core with
  | nil => intro rest acc _; simp [pyReadlinesAux]
  | cons c t ih =>
    intro rest acc h
    have hc : c ≠ '\n' := h c (by simp)
    have hstep : pyReadlinesAux ((c :: t) ++ '\n' :: rest) acc
        = pyReadlinesAux (t ++ '\n' :: rest) (c :: acc) := by
      simp only [List.cons_append, pyReadlinesAux]
      rw [if_neg hc]
      rfl
    rw [hstep, ih rest (c :: acc) (fun x hx => h x (by simp [hx]))]
    simp

lemma linesShape_readlines (s : List Char) :
    ∀ acc, (∀ c ∈ acc, c ≠ '\n') → LinesShape (pyReadlinesAux s acc) := by
  induction s with
  | nil =>
    intro acc hacc
    simp only [pyReadlinesAux]
    split
    · exact .nil
    · next hne =>
      refine .final _ (by simpa using hne) ?_
      intro c hc
      exact hacc c (List.mem_reverse.mp hc)
  | cons c t ih =>
    intro acc hacc
    simp only [pyReadlinesAux]
    by_cases hc : c = '\n'
    · rw [if_pos hc]
      exact .mid _ _ (fun x hx => hacc x (List.mem_reverse.mp hx)) (ih [] (by simp))
    · rw [if_neg hc]
      refine ih (c :: acc) ?_
      intro x hx
      rcases List.mem_cons.mp hx with h | h
      · subst h; exact hc
      · exact hacc x h

lemma readlines_flatten_of_shape : ∀ ls, LinesShape ls →
    pyReadlinesAux ls.flatten [] = ls := by
  intro ls h
  induction h with
  | nil => rfl
  | final l hne hnl =>
    have hfl : ([l] : List (List Char)).flatten = l := by simp
    rw [hfl, pyReadlinesAux_no_newline l [] hnl]
    simp [hne]
  | mid core tail hnl ht ih =>
    have hfl : ((core ++ ['\n']) :: tail).flatten = core ++ '\n' :: tail.flatten := by
      simp
    rw [hfl, pyReadlinesAux_split core tail.flatten [] hnl]
    simp [ih]

lemma linesShape_set (text : List Char) (htext : ∀ c ∈ text, c ≠ '\n') :
    ∀ ls, LinesShape ls → ∀ i, LinesShape (ls.set i (text ++ ['\n'])) := by
  intro ls h
  induction h with
  | nil => intro i; exact .nil
  | final l hne hnl =>
    intro i
    cases i with
    | zero => exact .mid text [] htext .nil
    | succ j => exact .final l hne hnl
  | mid core tail hnl ht ih =>
    intro i
    cases i with
    | zero => exact .mid text tail htext ht
    | succ j => exact .mid core (tail.set j (text ++ ['\n'])) hnl (ih j)

lemma dropWhile_newline_of_free (l : List Char) (h : ∀ c ∈ l, c ≠ '\n') :
    l.dropWhile (fun c => c = '\n') = l := by
  cases l with
  | nil => rfl
  | cons c t =>
    rw [List.dropWhile_cons_of_neg]
    simp only [decide_eq_true_eq]
    exact h c (by simp)

lemma rstripNewline_append_newline (text : String) (h : ∀ c ∈ text.data, c ≠ '\n') :
    rstripNewline (text ++ "\n") = text := by
  simp only [rstripNewline]
  have hd : (text ++ "\n").data = text.data ++ ['\n'] := by
    rw [String.data_append]
  rw [hd, List.reverse_append]
  have h1 : (['\n'] : List Char).reverse = ['\n'] := rfl
  rw [h1]
  have h2 : (('\n' :: text.data.reverse).dropWhile (fun c => c = '\n'))
      = text.data.reverse.dropWhile (fun c => c = '\n') := by
    rw [List.dropWhile_cons_of_pos]
    simp
  rw [show ('\n' :: text.data.reverse : List Char) = ['\n'] ++ text.data.reverse from rfl] at h2
  rw [h2, dropWhile_newline_of_free _ (fun c hc => h c (List.mem_reverse.mp hc)),
    List.reverse_reverse]

lemma map_data_map_mk (ls : List (List Char)) :
    (ls.map String.mk).map String.data = ls := by
  rw [List.map_map]
  have : (String.data ∘ String.mk) = id := by
    funext l; rfl
  rw [this, List.map_id]

lemma readlines_joinAll_set (content : String) (i : Nat) (text : String)
    (htext : ∀ c ∈ text.data, c ≠ '\n') :
    pyReadlines (joinAll ((pyReadlines content).set i (text ++ "\n"))) =
      (pyReadlines content).set i (text ++ "\n") := by
  have hdl : (text ++ "\n").data = text.data ++ ['\n'] := by
    rw [String.data_append]
  have hmapset : ((pyReadlines content).set i (text ++ "\n")).map String.data
      = (pyReadlinesAux content.data []).set i (text.data ++ ['\n']) := by
    rw [List.map_set, ← hdl]
    congr 1
    simp only [pyReadlines]
    exact map_data_map_mk _
  have hshape : LinesShape ((pyReadlinesAux content.data []).set i (text.data ++ ['\n'])) :=
    linesShape_set text.data htext _ (linesShape_readlines content.data [] (by simp)) i
  have hjd : (joinAll ((pyReadlines content).set i (text ++ "\n"))).data
      = ((pyReadlinesAux content.data []).set i (text.data ++ ['\n'])).flatten := by
    simp only [joinAll]
    rw [hmapset]
  calc pyReadlines (joinAll ((pyReadlines content).set i (text ++ "\n")))
      = (pyReadlinesAux
          (joinAll ((pyReadlines content).set i (text ++ "\n"))).data []).map String.mk := rfl
    _ = ((pyReadlinesAux content.data []).set i (text.data ++ ['\n'])).map String.mk := by
        rw [hjd, readlines_flatten_of_shape _ hshape]
    _ = ((pyReadlinesAux content.data []).map String.mk).set i
          (String.mk (text.data ++ ['\n'])) := by
        rw [List.map_set]
    _ = (pyReadlines content).set i (text ++ "\n") := by
        rw [← hdl]
        rfl

/-- C7 (amended): with the target file present, `insert_at_line` raises
`InvalidArgument` (before any write) whenever the position is not one of
before/after/replace or the 1-based line number is outside
`[1, total_lines]`; with a valid line number, `position = "replace"`, a
newline-free `text` and a modified content within the size ceiling, line
`n`'s text becomes `text` and every other line keeps its text. -/
theorem insert_at_line_spec (st : Settings) (ts : String) (fs : FS)
    (b f content text position : String) (n : Int)
    (hread : fs.get (fileKey ts b f) = some content) :
    ((position ≠ "before" ∧ position ≠ "after" ∧ position ≠ "replace") ∨
        n < 1 ∨ n > ((pyReadlines content).length : Int) →
      insert_at_line st ts fs b f n text position = .error .invalidArgument) ∧
    (position = "replace" → 1 ≤ n → n ≤ ((pyReadlines content).length : Int) →
      (∀ c ∈ text.data, c ≠ '\n') →
      (joinAll ((pyReadlines content).set (n - 1).toNat (text ++ "\n"))).utf8ByteSize
        ≤ st.maxFileSizeBytes →
      ∃ newContent,
        insert_at_line st ts fs b f n text position =
          .ok (fs.set (fileKey ts b f) newContent, .insertedAt position n b f) ∧
        (pyReadlines newContent).map rstripNewline =
          ((pyReadlines content).map rstripNewline).set (n - 1).toNat text) := by
  constructor
  · intro hbad
    simp only [insert_at_line, hread]
    split
    · rfl
    · next hvalid =>
      split
      · rfl
      · next hrange =>
        exfalso
        rcases hbad with ⟨ha, hb', hc⟩ | h | h
        · exact hvalid (by simp [ha, hb', hc])
        · exact hrange (by
            simp only [Bool.or_eq_true, decide_eq_true_eq]
            exact Or.inl (by omega))
        · exact hrange (by
            simp only [Bool.or_eq_true, decide_eq_true_eq]
            exact Or.inr (by omega))
  · intro hpos h1 h2 htext hsize
    subst hpos
    simp only [insert_at_line, hread]
    rw [if_neg (show ¬(("replace" : String) = "before") from by decide)]
    rw [if_neg (show ¬(("replace" : String) = "after") from by decide)]
    split
    · next hcond => exact absurd hcond (by decide)
    · split
      · next hcond =>
        exfalso
        simp only [Bool.or_eq_true, decide_eq_true_eq] at hcond
        omega
      · split
        · next hcond => exact absurd hcond (by omega)
        · refine ⟨joinAll ((pyReadlines content).set (n - 1).toNat (text ++ "\n")),
            rfl, ?_⟩
          rw [readlines_joinAll_set content (n - 1).toNat text htext, List.map_set,
            rstripNewline_append_newline text htext]

lemma utf8ByteSize_mk_cons (c : Char) (l : List Char) :
    (String.mk (c :: l)).utf8ByteSize = c.utf8Size + (String.mk l).utf8ByteSize := by
  simp [String.utf8ByteSize]
  omega

lemma utf8ByteSize_mk_append (l1 l2 : List Char) :
    (String.mk (l1 ++ l2)).utf8ByteSize
      = (String.mk l1).utf8ByteSize + (String.mk l2).utf8ByteSize := by
  induction l1 with
  | nil =>
    have h0 : (String.mk ([] : List Char)).utf8ByteSize = 0 := rfl
    simp [h0]
  | cons c t ih =>
    have h1 : ((c :: t) ++ l2) = c :: (t ++ l2) := rfl
    rw [h1, utf8ByteSize_mk_cons, ih, utf8ByteSize_mk_cons]
    omega

lemma utf8ByteSize_append (s t : String) :
    (s ++ t).utf8ByteSize = s.utf8ByteSize + t.utf8ByteSize := by
  have h : s ++ t = String.mk (s.data ++ t.data) := by
    apply String.ext
    rw [String.data_append]
  rw [h, utf8ByteSize_mk_append]

lemma joinAll_singleton (x : String) : joinAll [x] = x := by
  have h : (([x].map String.data).flatten) = x.data := by simp
  simp only [joinAll, h]

/-- C7 witness: replacing line 2 of `["a","b","c"]` with `"X"` yields
`["a","X","c"]`; line number 4 on the same file is rejected. -/
theorem insert_at_line_witness :
    (∃ newContent,
      insert_at_line defaultSettings ts0 (FS.set [] (fileKey ts0 "b" "notes.txt") "a\nb\nc")
        "b" "notes.txt" 2 "X" "replace" =
        .ok ((FS.set [] (fileKey ts0 "b" "notes.txt") "a\nb\nc").set
          (fileKey ts0 "b" "notes.txt") newContent, .insertedAt "replace" 2 "b" "notes.txt") ∧
      (pyReadlines newContent).map rstripNewline =
        ((pyReadlines "a\nb\nc").map rstripNewline).set ((2 - 1 : Int)).toNat "X") ∧
    insert_at_line defaultSettings ts0 (FS.set [] (fileKey ts0 "b" "notes.txt") "a\nb\nc")
      "b" "notes.txt" 4 "X" "replace" = .error .invalidArgument :=
  ⟨(insert_at_line_spec defaultSettings ts0
      (FS.set [] (fileKey ts0 "b" "notes.txt") "a\nb\nc") "b" "notes.txt" "a\nb\nc"
      "X" "replace" 2 (by decide)).2 rfl (by decide) (by decide) (by decide) (by decide),
   (insert_at_line_spec defaultSettings ts0
      (FS.set [] (fileKey ts0 "b" "notes.txt") "a\nb\nc") "b" "notes.txt" "a\nb\nc"
      "X" "replace" 4 (by decide)).1 (Or.inr (Or.inr (by decide)))⟩

/-- C7 counterexample: the claim as stated quantifies over every `text`.
With a valid line number and `position = "replace"` but a replacement
text one byte above the ceiling (after the appended newline), the call
raises the size-limit `InvalidArgument` error and replaces nothing. -/
theorem insert_at_line_oversize_counterexample :
    (1 : Int) ≥ 1 ∧ (1 : Int) ≤ ((pyReadlines "a\n").length : Int) ∧
    insert_at_line defaultSettings ts0 (FS.set [] (fileKey ts0 "b" "a.txt") "a\n")
      "b" "a.txt" 1 (bigA 10485760) "replace" = .error .invalidArgument := by
  refine ⟨by decide, by decide, ?_⟩
  simp only [insert_at_line, FS.get_set_self]
  rw [if_neg (show ¬(("replace" : String) = "before") from by decide)]
  rw [if_neg (show ¬(("replace" : String) = "after") from by decide)]
  split
  · next h => exact absurd h (by decide)
  · split
    · next h => exact absurd h (by decide)
    · split
      · rfl
      · next h =>
        exfalso
        apply h
        have h1 : pyReadlines "a\n" = ["a\n"] := by decide
        rw [h1]
        have h2 : (["a\n"] : List String).set ((1 - 1 : Int)).toNat
            (bigA 10485760 ++ "\n") = [bigA 10485760 ++ "\n"] := rfl
        rw [h2, joinAll_singleton, utf8ByteSize_append, bigA_utf8ByteSize]
        decide

/-! ## C4: replace_section marker scan and splice -/

lemma scanMarkers_until_start (sM eM : String) :
    ∀ (lines : List String) (s i : Nat),
      firstIdx (fun l => strContains l sM) lines = some s →
      scanMarkers sM eM lines i none =
        scanMarkers sM eM (lines.drop (s + 1)) (i + s + 1) (some (i + s)) := by
  intro lines
  induction lines with
  | nil => intro s i h; simp [firstIdx] at h
  | cons l t ih =>
    intro s i h
    simp only [firstIdx] at h
    by_cases hc : strContains l sM = true
    · rw [if_pos hc] at h
      have hs : s = 0 := by
        have := Option.some.inj h
        omega
      subst hs
      simp only [scanMarkers]
      rw [if_pos (by simp [hc])]
      simp
    · rw [if_neg hc] at h
      obtain ⟨s', hs', rfl⟩ : ∃ s', firstIdx (fun l => strContains l sM) t = some s'
          ∧ s = s' + 1 := by
        cases hfind : firstIdx (fun l => strContains l sM) t with
        | none => rw [hfind] at h; simp at h
        | some v =>
          rw [hfind] at h
          simp at h
          exact ⟨v, rfl, h.symm⟩
      have hstep : scanMarkers sM eM (l :: t) i none = scanMarkers sM eM t (i + 1) none := by
        simp only [scanMarkers]
        rw [if_neg (by simp [hc]), if_neg (by simp)]
      rw [hstep, ih s' (i + 1) hs']
      have e1 : i + 1 + s' + 1 = i + (s' + 1) + 1 := by omega
      have e2 : i + 1 + s' = i + (s' + 1) := by omega
      rw [e1, e2]
      rfl

lemma scanMarkers_find_end (sM eM : String) :
    ∀ (lines : List String) (k i j : Nat),
      firstIdx (fun l => strContains l eM) lines = some k →
      scanMarkers sM eM lines i (some j) = (some j, some (i + k)) := by
  intro lines
  induction lines with
  | nil => intro k i j h; simp [firstIdx] at h
  | cons l t ih =>
    intro k i j h
    simp only [firstIdx] at h
    by_cases hc : strContains l eM = true
    · rw [if_pos hc] at h
      have hk : k = 0 := by
        have := Option.some.inj h
        omega
      subst hk
      simp only [scanMarkers]
      rw [if_neg (by simp), if_pos (by simp [hc])]
      simp
    · rw [if_neg hc] at h
      obtain ⟨k', hk', rfl⟩ : ∃ k', firstIdx (fun l => strContains l eM) t = some k'
          ∧ k = k' + 1 := by
        cases hfind : firstIdx (fun l => strContains l eM) t with
        | none => rw [hfind] at h; simp at h
        | some v =>
          rw [hfind] at h
          simp at h
          exact ⟨v, rfl, h.symm⟩
      have hstep : scanMarkers sM eM (l :: t) i (some j)
          = scanMarkers sM eM t (i + 1) (some j) := by
        simp only [scanMarkers]
        rw [if_neg (by simp), if_neg (by simp [hc])]
      rw [hstep, ih k' (i + 1) j hk']
      have e1 : i + 1 + k' = i + (k' + 1) := by omega
      rw [e1]

/-- C4: when the lines contain a first line with `start_marker` as a
substring (index `s`) and a first subsequent line with `end_marker` as a
substring (index `s + 1 + k`), `replace_section` keeps the start-marker
line, drops every line strictly between the two markers, and splices
`new_content` in as a single block, keeping the end-marker line. -/
theorem replace_section_splices (lines : List String) (sM eM newC : String) (s k : Nat)
    (hs : firstIdx (fun l => strContains l sM) lines = some s)
    (he : firstIdx (fun l => strContains l eM) (lines.drop (s + 1)) = some k) :
    replaceSectionLines lines sM eM newC =
      some (lines.take (s + 1) ++ [newC] ++ lines.drop (s + 1 + k)) := by
  simp only [replaceSectionLines]
  rw [scanMarkers_until_start sM eM lines s 0 hs]
  simp only [Nat.zero_add]
  rw [scanMarkers_find_end sM eM (lines.drop (s + 1)) k (s + 1) s he]

/-- C4 witness: the example of spec §8. -/
theorem replace_section_witness :
    replaceSectionLines ["<!--START-->", "old1", "old2", "<!--END-->", "tail"]
      "<!--START-->" "<!--END-->" "NEW" =
      some ["<!--START-->", "NEW", "<!--END-->", "tail"] := by
  have h := replace_section_splices
    ["<!--START-->", "old1", "old2", "<!--END-->", "tail"]
    "<!--START-->" "<!--END-->" "NEW" 0 2 (by decide) (by decide)
  exact h.trans (by decide)

/-! ## C8: the "note" placement heuristic -/

lemma noteScanMsg_of_no_blank (lines : List String) :
    ∀ m, (∀ j, j < m → isBlankLine (lines.getD j "") = false) →
      noteScanMsg lines m = (lines.length, "Added to end of file") := by
  intro m
  induction m with
  | zero => intro _; rfl
  | succ i ih =>
    intro h
    simp only [noteScanMsg]
    rw [if_neg (by
      simp only [h i (by omega)]
      decide)]
    exact ih (fun j hj => h j (by omega))

lemma noteScanMsg_of_blank (lines : List String) (i : Nat) :
    ∀ m, i < m → isBlankLine (lines.getD i "") = true →
      (∀ j, i < j → j < m → isBlankLine (lines.getD j "") = false) →
      noteScanMsg lines m = (i + 1, "Added after empty line " ++ toString (i + 1)) := by
  intro m
  induction m with
  | zero => intro h; omega
  | succ p ih =>
    intro him hb hafter
    simp only [noteScanMsg]
    by_cases hip : i = p
    · subst hip
      rw [if_pos hb]
    · have hlt : i < p := by omega
      rw [if_neg (by
        simp only [hafter p hlt (by omega)]
        decide)]
      exact ih hlt hb (fun j hj1 hj2 => hafter j hj1 (by omega))

/-- C8: with the "note" hint, `smart_content_placement` returns the
zero-based index immediately after the last blank line of the existing
content (a line being blank when it is empty after stripping
whitespace), and the total number of lines when no line is blank. -/
theorem note_placement_spec (existing newContent : String) :
    ((∀ j, j < (splitStr '\n' existing).length →
        isBlankLine ((splitStr '\n' existing).getD j "") = false) →
      smart_content_placement existing newContent (some "note") =
        ((splitStr '\n' existing).length, "Added to end of file")) ∧
    (∀ i, i < (splitStr '\n' existing).length →
      isBlankLine ((splitStr '\n' existing).getD i "") = true →
      (∀ j, i < j → j < (splitStr '\n' existing).length →
        isBlankLine ((splitStr '\n' existing).getD j "") = false) →
      smart_content_placement existing newContent (some "note") =
        (i + 1, "Added after empty line " ++ toString (i + 1))) := by
  have hd : smart_content_placement existing newContent (some "note")
      = noteScanMsg (splitStr '\n' existing) (splitStr '\n' existing).length := rfl
  constructor
  · intro h
    rw [hd]
    exact noteScanMsg_of_no_blank _ _ h
  · intro i hi hb hafter
    rw [hd]
    exact noteScanMsg_of_blank _ i _ hi hb hafter

/-- C8 witness: `"a\n\nb"` has its last blank line at zero-based index 1,
so insertion goes to index 2; `"x"` has no blank line, so insertion goes
to the end (index 1). -/
theorem note_placement_witness :
    smart_content_placement "a\n\nb" "new" (some "note") = (2, "Added after empty line 2") ∧
    smart_content_placement "x" "new" (some "note") = (1, "Added to end of file") :=
  ⟨((note_placement_spec "a\n\nb" "new").2 1 (by decide) (by decide)
      (fun j hj1 hj2 => by
        have hj : j = 2 := by
          have : (splitStr '\n' "a\n\nb").length = 3 := by decide
          omega
        subst hj
        decide)).trans (by decide),
   ((note_placement_spec "x" "new").1 (fun j hj => by
      have hj0 : j = 0 := by
        have : (splitStr '\n' "x").length = 1 := by decide
        omega
      subst hj0
      decide)).trans (by decide)⟩

/-! ## C9: filename length cap -/

lemma truncate255_short (f2 : List Char) (h : ¬ f2.length > 255) :
    truncate255 f2 = f2 := by
  simp [truncate255, h]

lemma truncate255_ext (f2 name ext : List Char) (hlen : f2.length > 255)
    (hsplit : rsplitDot f2 = some (name, ext)) :
    truncate255 f2 = pySliceTo name (255 - (ext.length : Int) - 1) ++ '.' :: ext := by
  simp only [truncate255]
  rw [if_pos hlen, hsplit]

lemma truncate255_noext (f2 : List Char) (hlen : f2.length > 255)
    (hsplit : rsplitDot f2 = none) :
    truncate255 f2 = f2.take 255 := by
  simp only [truncate255]
  rw [if_pos hlen, hsplit]

/-- C9 (amended): the output of `sanitize_filename` has length at most
255 whenever the extension at the last dot of the substituted-and-
stripped name has at most 254 characters (the timestamp fallback being
at most 250 characters), and when truncation occurs with an extension
present the final ".ext" suffix is preserved.  (For longer extensions,
Python's negative slice makes the cap fail — see the counterexample.) -/
theorem sanitize_filename_length_spec (ts filename : String)
    (hts : ts.length ≤ 250) (hext : extLenOk filename = true) :
    (sanitize_filename ts filename).length ≤ 255 ∧
    (∀ name ext,
      rsplitDot (stripSet (fun c => c = '.' || c = ' ')
        (filename.data.map (fun c => if isInvalidFileChar c then '_' else c))) =
        some (name, ext) →
      (stripSet (fun c => c = '.' || c = ' ')
        (filename.data.map (fun c => if isInvalidFileChar c then '_' else c))).length > 255 →
      ('.' :: ext) <:+ (sanitize_filename ts filename).data) := by
  have hextOk : ∀ name ext,
      rsplitDot (stripSet (fun c => c = '.' || c = ' ')
        (filename.data.map (fun c => if isInvalidFileChar c then '_' else c))) =
        some (name, ext) → ext.length ≤ 254 := by
    intro name ext h
    unfold extLenOk at hext
    rw [h] at hext
    simpa using hext
  revert hextOk
  simp only [sanitize_filename]
  generalize stripSet (fun c => c = '.' || c = ' ')
      (filename.data.map (fun c => if isInvalidFileChar c then '_' else c)) = f2
  intro hextOk
  by_cases hlen : f2.length > 255
  · cases hsplit : rsplitDot f2 with
    | some pe =>
      obtain ⟨name, ext⟩ := pe
      have hextle : ext.length ≤ 254 := hextOk name ext hsplit
      rw [truncate255_ext f2 name ext hlen hsplit]
      rw [if_neg (by simp)]
      have hklen : (pySliceTo name (255 - (ext.length : Int) - 1)).length
          ≤ 254 - ext.length := by
        unfold pySliceTo
        rw [if_pos (by omega)]
        rw [List.length_take]
        omega
      constructor
      · have hL : (String.mk (pySliceTo name (255 - (ext.length : Int) - 1)
            ++ '.' :: ext)).length
            = (pySliceTo name (255 - (ext.length : Int) - 1)).length
              + (ext.length + 1) := by
          rw [String.length_mk, List.length_append, List.length_cons]
        rw [hL]
        omega
      · intro name' ext' h' hlen'
        have hpair := Option.some.inj h'
        have hext' : ext = ext' := congrArg Prod.snd hpair
        subst hext'
        exact List.suffix_append _ _
    | none =>
      rw [truncate255_noext f2 hlen hsplit]
      have h255 : (f2.take 255).length = 255 := by
        rw [List.length_take]
        omega
      rw [if_neg (by
        intro h0
        rw [h0] at h255
        simp at h255)]
      constructor
      · rw [String.length_mk, h255]
      · intro name' ext' h' hlen'
        exact Option.noConfusion h'
  · rw [truncate255_short f2 hlen]
    by_cases h0 : f2 = []
    · rw [if_pos h0]
      constructor
      · rw [String.length_append]
        have h5 : ("file_" : String).length = 5 := rfl
        rw [h5]
        omega
      · intro name' ext' h' hlen'
        exact absurd hlen' hlen
    · rw [if_neg h0]
      constructor
      · rw [String.length_mk]
        omega
      · intro name' ext' h' hlen'
        exact absurd hlen' hlen

set_option maxRecDepth 8192 in
/-- C9 witness: a 304-character name with a short extension is capped
(truncated to 255 characters keeping ".txt"). -/
theorem sanitize_filename_length_witness :
    (sanitize_filename ts0 longName).length ≤ 255 ∧
    (∀ name ext,
      rsplitDot (stripSet (fun c => c = '.' || c = ' ')
        (longName.data.map (fun c => if isInvalidFileChar c then '_' else c))) =
        some (name, ext) →
      (stripSet (fun c => c = '.' || c = ' ')
        (longName.data.map (fun c => if isInvalidFileChar c then '_' else c))).length > 255 →
      ('.' :: ext) <:+ (sanitize_filename ts0 longName).data) :=
  sanitize_filename_length_spec ts0 longName (by decide) (by decide)

set_option maxRecDepth 8192 in
/-- C9 counterexample: a filename whose extension part alone exceeds the
cap.  `"a." ++ 300 × 'x'` sanitizes to a 301-character name, because
`name[:255 - len(ext) - 1]` with a negative bound keeps the whole
extension while the cap needs it dropped. -/
theorem sanitize_filename_overlong_counterexample :
    255 < (sanitize_filename ts0 overLongExt).length := by decide

/-! ## C10: smart_append skips the extension allow-list -/

/-- C10: `smart_append` never consults the extension allow-list.  On a
nonexistent file whose extension is disallowed, it creates the file with
the given content (when the content passes the size ceiling), while
`write_file` and `append_file` on the same filename fail with
`InvalidArgument` before writing. -/
theorem smart_append_skips_extension_check (st : Settings) (ts : String) (fs : FS)
    (b f C : String) (hint : Option String) (dup : Bool)
    (hnotallowed : is_allowed_file_type st f = false)
    (habsent : fs.get (fileKey ts b f) = none)
    (hsize : C.utf8ByteSize ≤ st.maxFileSizeBytes) :
    smart_append st ts fs b f C hint dup =
      .ok (fs.set (fileKey ts b f) C, .createdBySmartAppend b f C.length) ∧
    (fs.set (fileKey ts b f) C).get (fileKey ts b f) = some C ∧
    write_file st ts fs b f C false = .error .invalidArgument ∧
    append_file st ts fs b f C "\n\n" = .error .invalidArgument := by
  refine ⟨?_, FS.get_set_self fs (fileKey ts b f) C, ?_, ?_⟩
  · have hx : ¬ (C.utf8ByteSize > st.maxFileSizeBytes) := by omega
    simp [smart_append, habsent, hx]
  · simp [write_file, hnotallowed]
  · simp [append_file, hnotallowed]

/-- C10 witness: `virus.exe` is not in the default allow-list, yet
`smart_append` creates it. -/
theorem smart_append_skips_extension_check_witness :
    smart_append defaultSettings ts0 [] "b" "virus.exe" "hello" none true =
      .ok (FS.set [] (fileKey ts0 "b" "virus.exe") "hello",
        .createdBySmartAppend "b" "virus.exe" 5) ∧
    (FS.set [] (fileKey ts0 "b" "virus.exe") "hello").get
      (fileKey ts0 "b" "virus.exe") = some "hello" ∧
    write_file defaultSettings ts0 [] "b" "virus.exe" "hello" false =
      .error .invalidArgument ∧
    append_file defaultSettings ts0 [] "b" "virus.exe" "hello" "\n\n" =
      .error .invalidArgument :=
  smart_append_skips_extension_check defaultSettings ts0 [] "b" "virus.exe" "hello"
    none true (by decide) (by decide) (by decide)

/-! ## C6: smart_append duplicate refusal -/

lemma mem_positionsAux (c : Char) :
    ∀ (l : List Char) (j0 j : Nat),
      j ∈ positionsAux c l j0 ↔
        j0 ≤ j ∧ j - j0 < l.length ∧ charAt l (j - j0) = c := by
  intro l
  induction l with
  | nil =>
    intro j0 j
    simp [positionsAux]
  | cons x xs ih =>
    intro j0 j
    simp only [positionsAux]
    by_cases hx : x = c
    · rw [if_pos hx]
      constructor
      · intro h
        rcases List.mem_cons.mp h with h0 | h0
        · subst h0
          refine ⟨le_refl _, by simp, ?_⟩
          simp [charAt, hx]
        · obtain ⟨h1, h2, h3⟩ := (ih (j0 + 1) j).mp h0
          refine ⟨by omega, by simp; omega, ?_⟩
          have e : j - j0 = (j - (j0 + 1)) + 1 := by omega
          rw [e]
          simpa [charAt] using h3
      · rintro ⟨h1, h2, h3⟩
        by_cases hj : j = j0
        · subst hj
          simp
        · have hgt : j0 + 1 ≤ j := by omega
          apply List.mem_cons_of_mem
          apply (ih (j0 + 1) j).mpr
          refine ⟨hgt, by simp at h2; omega, ?_⟩
          have e : j - j0 = (j - (j0 + 1)) + 1 := by omega
          rw [e] at h3
          simpa [charAt] using h3
    · rw [if_neg hx]
      constructor
      · intro h
        obtain ⟨h1, h2, h3⟩ := (ih (j0 + 1) j).mp h
        refine ⟨by omega, by simp; omega, ?_⟩
        have e : j - j0 = (j - (j0 + 1)) + 1 := by omega
        rw [e]
        simpa [charAt] using h3
      · rintro ⟨h1, h2, h3⟩
        by_cases hj : j = j0
        · subst hj
          simp only [Nat.sub_self] at h3
          exact absurd h3 (by simpa [charAt] using hx)
        · apply (ih (j0 + 1) j).mpr
          refine ⟨by omega, by simp at h2; omega, ?_⟩
          have e : j - j0 = (j - (j0 + 1)) + 1 := by omega
          rw [e] at h3
          simpa [charAt] using h3

lemma mem_b2j_facts (b : List Char) (c : Char) (j : Nat) (h : j ∈ b2j b c) :
    j < b.length ∧ charAt b j = c := by
  have hp : j ∈ positionsAux c b 0 := by
    simp only [b2j] at h
    split at h
    · simp at h
    · exact h
  obtain ⟨_, h2, h3⟩ := (mem_positionsAux c b 0 j).mp hp
  simpa using ⟨h2, h3⟩

lemma b2j_self_of_mem (b : List Char) (c : Char) (i j : Nat) (h : j ∈ b2j b c)
    (hi : i < b.length) (hc : charAt b i = c) : i ∈ b2j b c := by
  simp only [b2j] at h ⊢
  split at h
  · simp at h
  · next hcond =>
    rw [if_neg hcond]
    exact (mem_positionsAux c b 0 i).mpr ⟨Nat.zero_le _, by simpa using hi, by simpa using hc⟩

lemma positionsAux_ge (c : Char) :
    ∀ (l : List Char) (j0 j : Nat), j ∈ positionsAux c l j0 → j0 ≤ j := by
  intro l
  induction l with
  | nil => intro j0 j h; simp [positionsAux] at h
  | cons x xs ih =>
    intro j0 j h
    simp only [positionsAux] at h
    split at h
    · rcases List.mem_cons.mp h with h0 | h0
      · omega
      · have := ih (j0 + 1) j h0
        omega
    · have := ih (j0 + 1) j h
      omega

lemma positionsAux_pairwise (c : Char) :
    ∀ (l : List Char) (j0 : Nat), List.Pairwise (· < ·) (positionsAux c l j0) := by
  intro l
  induction l with
  | nil => intro j0; simp [positionsAux]
  | cons x xs ih =>
    intro j0
    simp only [positionsAux]
    split
    · refine List.Pairwise.cons ?_ (ih (j0 + 1))
      intro j hj
      have := positionsAux_ge c xs (j0 + 1) j hj
      omega
    · exact ih (j0 + 1)

lemma b2j_pairwise (b : List Char) (c : Char) : List.Pairwise (· < ·) (b2j b c) := by
  simp only [b2j]
  split
  · exact List.Pairwise.nil
  · exact positionsAux_pairwise c b 0

lemma rlRow_le (s : List Char) : ∀ (i j : Nat), rlRow s i j ≤ i := by
  intro i
  induction i with
  | zero => intro j; simp [rlRow]
  | succ m ih =>
    intro j
    simp only [rlRow]
    split
    · split
      · omega
      · have := ih (j - 1)
        omega
    · omega

lemma rlRow_succ (s : List Char) (i j : Nat) :
    rlRow s (i + 1) j =
      if j ∈ b2j s (charAt s i) then
        (if j = 0 then 0 else rlRow s i (j - 1)) + 1
      else 0 := rfl

lemma rlRow_le_diag (s : List Char) : ∀ (j i : Nat), j ≤ i →
    rlRow s (i + 1) j ≤ rlRow s (j + 1) j := by
  intro j
  induction j with
  | zero =>
    intro i hji
    rw [rlRow_succ s i 0, rlRow_succ s 0 0]
    split
    · next hv =>
      obtain ⟨h0n, hc⟩ := mem_b2j_facts s (charAt s i) 0 hv
      have hv0 : (0 : Nat) ∈ b2j s (charAt s 0) := by rw [hc]; exact hv
      rw [if_pos hv0]
      simp
    · exact Nat.zero_le _
  | succ j' ihj =>
    intro i hji
    obtain ⟨i', rfl⟩ : ∃ i', i = i' + 1 := ⟨i - 1, by omega⟩
    have hj'i' : j' ≤ i' := by omega
    rw [rlRow_succ s (i' + 1) (j' + 1), rlRow_succ s (j' + 1) (j' + 1)]
    split
    · next hv =>
      obtain ⟨hjn, hc⟩ := mem_b2j_facts s (charAt s (i' + 1)) (j' + 1) hv
      have hv0 : (j' + 1) ∈ b2j s (charAt s (j' + 1)) := by rw [hc]; exact hv
      rw [if_pos hv0]
      rw [if_neg (Nat.succ_ne_zero j'), if_neg (Nat.succ_ne_zero j')]
      have e : j' + 1 - 1 = j' := rfl
      rw [e]
      have := ihj i' hj'i'
      omega
    · exact Nat.zero_le _

lemma rlRow_le_diag2 (s : List Char) : ∀ (i j : Nat), i ≤ j →
    rlRow s (i + 1) j ≤ rlRow s (i + 1) i := by
  intro i
  induction i with
  | zero =>
    intro j hij
    rw [rlRow_succ s 0 j, rlRow_succ s 0 0]
    split
    · next hv =>
      obtain ⟨hjn, hc⟩ := mem_b2j_facts s (charAt s 0) j hv
      have h0 : (0 : Nat) ∈ b2j s (charAt s 0) :=
        b2j_self_of_mem s (charAt s 0) 0 j hv (by omega) rfl
      rw [if_pos h0]
      split
      · simp
      · simp [rlRow]
    · exact Nat.zero_le _
  | succ i' ih =>
    intro j hij
    obtain ⟨j', rfl⟩ : ∃ j', j = j' + 1 := ⟨j - 1, by omega⟩
    have hi'j' : i' ≤ j' := by omega
    rw [rlRow_succ s (i' + 1) (j' + 1), rlRow_succ s (i' + 1) (i' + 1)]
    split
    · next hv =>
      obtain ⟨hjn, hc⟩ := mem_b2j_facts s (charAt s (i' + 1)) (j' + 1) hv
      have hvi : (i' + 1) ∈ b2j s (charAt s (i' + 1)) :=
        b2j_self_of_mem s (charAt s (i' + 1)) (i' + 1) (j' + 1) hv (by omega) rfl
      rw [if_pos hvi]
      rw [if_neg (Nat.succ_ne_zero j'), if_neg (Nat.succ_ne_zero i')]
      have e1 : j' + 1 - 1 = j' := rfl
      have e2 : i' + 1 - 1 = i' := rfl
      rw [e1, e2]
      have := ih j' hi'j'
      omega
    · exact Nat.zero_le _

lemma flmInner_invariant (s : List Char) (i : Nat)
    (j2len : Nat → Nat) (hprev : ∀ j, j2len j = rlRow s i j) :
    ∀ (js : List Nat) (m : Nat) (newj2len : Nat → Nat) (B K : Nat),
      (∀ j ∈ js, m ≤ j ∧ j ∈ b2j s (charAt s i)) →
      (∀ j', m ≤ j' → j' ∈ b2j s (charAt s i) → j' ∈ js) →
      List.Pairwise (· < ·) js →
      B + K ≤ s.length →
      (∀ i' j', i' < i → rlRow s (i' + 1) j' ≤ K) →
      (∀ j', j' < m → rlRow s (i + 1) j' ≤ K) →
      (∀ j', newj2len j' = if j' < m then rlRow s (i + 1) j' else 0) →
      ∃ B' K',
        flmInner 0 s.length j2len i js newj2len (B, B, K) =
          ((fun j' => rlRow s (i + 1) j'), (B', B', K')) ∧
        B' + K' ≤ s.length ∧
        (∀ i' j', i' < i + 1 → rlRow s (i' + 1) j' ≤ K') := by
  intro js
  induction js with
  | nil =>
    intro m newj2len B K h4 h5 hpw hBK hrows h3 h7
    refine ⟨B, K, ?_, hBK, ?_⟩
    · show (newj2len, (B, B, K)) = _
      have hfun : newj2len = fun j' => rlRow s (i + 1) j' := by
        funext j'
        rw [h7 j']
        split
        · rfl
        · next hge =>
          by_cases hv : j' ∈ b2j s (charAt s i)
          · exact absurd (h5 j' (by omega) hv) (List.not_mem_nil _)
          · rw [rlRow_succ, if_neg hv]
      rw [hfun]
    · intro i' j' hi'
      by_cases hii : i' < i
      · exact hrows i' j' hii
      · have hieq : i' = i := by omega
        subst hieq
        by_cases hjm : j' < m
        · exact h3 j' hjm
        · by_cases hv : j' ∈ b2j s (charAt s i')
          · exact absurd (h5 j' (by omega) hv) (List.not_mem_nil _)
          · rw [rlRow_succ, if_neg hv]
            omega
  | cons j rest ih =>
    intro m newj2len B K h4 h5 hpw hBK hrows h3 h7
    obtain ⟨hmj, hvj⟩ := h4 j (by simp)
    obtain ⟨hjn, hcj⟩ := mem_b2j_facts s (charAt s i) j hvj
    have hpw' := List.pairwise_cons.mp hpw
    simp only [flmInner]
    rw [if_neg (by omega), if_neg (by omega)]
    have hk : (if j = 0 then 0 else j2len (j - 1)) + 1 = rlRow s (i + 1) j := by
      rw [rlRow_succ, if_pos hvj]
      congr 1
      split
      · rfl
      · exact hprev (j - 1)
    rw [hk]
    -- shared facts for the recursive call
    have h4' : ∀ x ∈ rest, j + 1 ≤ x ∧ x ∈ b2j s (charAt s i) := by
      intro x hx
      exact ⟨hpw'.1 x hx, (h4 x (List.mem_cons_of_mem j hx)).2⟩
    have h5' : ∀ j', j + 1 ≤ j' → j' ∈ b2j s (charAt s i) → j' ∈ rest := by
      intro j' hj' hv
      rcases List.mem_cons.mp (h5 j' (by omega) hv) with he | he
      · omega
      · exact he
    have hnovisit : ∀ j', m ≤ j' → j' < j → ¬ j' ∈ b2j s (charAt s i) := by
      intro j' h1 h2 hv
      rcases List.mem_cons.mp (h5 j' h1 hv) with he | he
      · omega
      · have := hpw'.1 j' he
        omega
    have h7' : ∀ j', ((fun x' => if x' = j then rlRow s (i + 1) j else newj2len x') j'
        = if j' < j + 1 then rlRow s (i + 1) j' else 0) := by
      intro j'
      by_cases hej : j' = j
      · subst hej
        simp
      · simp only [if_neg hej]
        rw [h7 j']
        by_cases hjm : j' < m
        · rw [if_pos hjm, if_pos (by omega)]
        · rw [if_neg hjm]
          by_cases hlt : j' < j + 1
          · rw [if_pos hlt]
            have hnv := hnovisit j' (by omega) (by omega)
            rw [rlRow_succ, if_neg hnv]
          · rw [if_neg hlt]
    by_cases hkK : K < rlRow s (i + 1) j
    · -- the best updates: this can only happen on the diagonal
      have hji : j = i := by
        by_contra hne
        rcases Nat.lt_or_ge j i with hlt | hge
        · have h1 : rlRow s (i + 1) j ≤ rlRow s (j + 1) j := rlRow_le_diag s j i (by omega)
          have h2 : rlRow s (j + 1) j ≤ K := hrows j j hlt
          omega
        · have hgt : i < j := by omega
          have h1 : rlRow s (i + 1) j ≤ rlRow s (i + 1) i := rlRow_le_diag2 s i j (by omega)
          have him : i < m := by
            by_contra hge2
            have hmem := h5 i (by omega)
              (b2j_self_of_mem s (charAt s i) i j hvj (by omega) rfl)
            rcases List.mem_cons.mp hmem with he | he
            · omega
            · have := hpw'.1 i he
              omega
          have h2 : rlRow s (i + 1) i ≤ K := h3 i him
          omega
      subst hji
      rw [if_pos (show (j, j, K).2.2 < rlRow s (j + 1) j from hkK)]
      have hksize : rlRow s (j + 1) j ≤ j + 1 := rlRow_le s (j + 1) j
      obtain ⟨B', K', hrec, hBK', hrows'⟩ := ih (j + 1)
        (fun x' => if x' = j then rlRow s (j + 1) j else newj2len x')
        (j + 1 - rlRow s (j + 1) j) (rlRow s (j + 1) j)
        h4' h5' hpw'.2 (by omega)
        (fun i' j' hi' => le_trans (le_trans (hrows i' j' hi') (le_of_lt hkK)) (le_refl _))
        (by
          intro j' hj'
          by_cases hej : j' = j
          · subst hej
            exact le_refl _
          · by_cases hjm : j' < m
            · exact le_trans (h3 j' hjm) (le_of_lt hkK)
            · have hnv := hnovisit j' (by omega) (by omega)
              rw [rlRow_succ, if_neg hnv]
              omega)
        h7'
      exact ⟨B', K', hrec, hBK', hrows'⟩
    · rw [if_neg (show ¬ (j, j, K).2.2 < rlRow s (i + 1) j from by
        intro hcon
        exact hkK hcon)]
      obtain ⟨B', K', hrec, hBK', hrows'⟩ := ih (j + 1)
        (fun x' => if x' = j then rlRow s (i + 1) j else newj2len x')
        B K h4' h5' hpw'.2 hBK hrows
        (by
          intro j' hj'
          by_cases hej : j' = j
          · subst hej
            omega
          · by_cases hjm : j' < m
            · exact h3 j' hjm
            · have hnv := hnovisit j' (by omega) (by omega)
              rw [rlRow_succ, if_neg hnv]
              omega)
        h7'
      exact ⟨B', K', hrec, hBK', hrows'⟩

lemma extendLeft_diag (s : List Char) : ∀ (fuel bi k : Nat), bi ≤ fuel →
    extendLeft s s 0 0 fuel (bi, bi, k) = (0, 0, k + bi) := by
  intro fuel
  induction fuel with
  | zero =>
    intro bi k h
    have hbi : bi = 0 := by omega
    subst hbi
    rfl
  | succ f ih =>
    intro bi k h
    cases bi with
    | zero =>
      simp only [extendLeft]
      rw [if_neg (by simp)]
      simp
    | succ b =>
      simp only [extendLeft]
      rw [if_pos (by simp)]
      simp only [Nat.add_sub_cancel]
      rw [ih b (k + 1) (by omega)]
      have e : k + 1 + b = k + (b + 1) := by omega
      rw [e]

lemma extendRight_diag (s : List Char) (n : Nat) : ∀ (fuel m : Nat),
    n - m ≤ fuel → m ≤ n →
    extendRight s s n n fuel (0, 0, m) = (0, 0, n) := by
  intro fuel
  induction fuel with
  | zero =>
    intro m h1 h2
    have hm : m = n := by omega
    subst hm
    rfl
  | succ f ih =>
    intro m h1 h2
    by_cases hm : m < n
    · simp only [extendRight]
      rw [if_pos (by simp [hm])]
      exact ih (m + 1) (by omega) (by omega)
    · have he : m = n := by omega
      subst he
      simp only [extendRight]
      rw [if_neg (by simp)]

lemma rlRow_zero (s : List Char) (j : Nat) : rlRow s 0 j = 0 := rfl

lemma flmOuter_diag (s : List Char) :
    ∀ (rest : List Char) (i : Nat) (j2len : Nat → Nat) (B K : Nat),
      rest = s.drop i → i ≤ s.length →
      (∀ j, j2len j = rlRow s i j) →
      B + K ≤ s.length →
      (∀ i' j', i' < i → rlRow s (i' + 1) j' ≤ K) →
      ∃ B' K', flmOuter (b2j s) 0 s.length rest i j2len (B, B, K) = (B', B', K') ∧
        B' + K' ≤ s.length := by
  intro rest
  induction rest with
  | nil =>
    intro i j2len B K hrest hi hprev hBK hrows
    exact ⟨B, K, rfl, hBK⟩
  | cons c cs ih =>
    intro i j2len B K hrest hi hprev hBK hrows
    have hilt : i < s.length := by
      by_contra hcon
      rw [List.drop_eq_nil_of_le (by omega)] at hrest
      exact List.noConfusion hrest.symm
    have hcs : cs = s.drop (i + 1) := by
      have h1 : List.drop 1 (List.drop i s) = List.drop (i + 1) s := List.drop_drop 1 i s
      have h2 : List.drop 1 (List.drop i s) = cs := by
        rw [← hrest]
        rfl
      rw [← h2, h1]
    have hc : c = charAt s i := by
      have h1 : s[i]? = some c := by
        have h2 : (s.drop i)[0]? = s[i]? := by
          rw [List.getElem?_drop]
          simp
        rw [← h2, ← hrest]
        simp
      simp only [charAt, List.getD]
      rw [List.get?_eq_getElem?, h1]
      rfl
    obtain ⟨B', K', hstep, hBK', hrows'⟩ := flmInner_invariant s i j2len hprev
      (b2j s (charAt s i)) 0 (fun _ => 0) B K
      (fun j hj => ⟨Nat.zero_le _, hj⟩)
      (fun j' _ hj => hj)
      (b2j_pairwise s (charAt s i))
      hBK hrows
      (fun j' hj' => absurd hj' (by omega))
      (fun j' => by rw [if_neg (by omega)])
    simp only [flmOuter]
    rw [hc, hstep]
    exact ih (i + 1) _ B' K' hcs (by omega) (fun j => rfl) hBK' hrows'

lemma findLongestMatch_self (s : List Char) :
    findLongestMatch s s 0 s.length 0 s.length = (0, 0, s.length) := by
  have hslice : (s.take s.length).drop 0 = s.drop 0 := by
    rw [List.take_length]
  obtain ⟨B, K, houter, hBK⟩ := flmOuter_diag s (s.drop 0) 0 (fun _ => 0) 0 0 rfl
    (by omega) (fun j => rfl) (by omega)
    (fun i' j' hi' => absurd hi' (by omega))
  simp only [findLongestMatch]
  rw [hslice, houter]
  rw [extendLeft_diag s B B K (le_refl B)]
  rw [extendRight_diag s s.length (s.length + s.length) (K + B) (by omega) (by omega)]

lemma extendLeft_stuck (a b : List Char) (v blo : Nat) :
    ∀ fuel bj k, extendLeft a b v blo fuel (v, bj, k) = (v, bj, k) := by
  intro fuel bj k
  cases fuel with
  | zero => rfl
  | succ f =>
    simp only [extendLeft]
    rw [if_neg (by simp)]

lemma extendRight_stuck (a b : List Char) (bhi bj k : Nat) :
    ∀ fuel, extendRight a b (k + 0) bhi fuel (0, bj, k) = (0, bj, k) := by
  intro fuel
  cases fuel with
  | zero => rfl
  | succ f =>
    simp only [extendRight]
    rw [if_neg (by simp)]

lemma findLongestMatch_empty_range (s : List Char) (v : Nat) :
    findLongestMatch s s v v v v = (v, v, 0) := by
  simp only [findLongestMatch]
  have hslice : (s.take v).drop v = [] := by
    apply List.drop_eq_nil_of_le
    rw [List.length_take]
    omega
  rw [hslice]
  simp only [flmOuter]
  rw [extendLeft_stuck]
  cases hf : v + v with
  | zero => rfl
  | succ f =>
    simp only [extendRight]
    rw [if_neg (by simp)]

lemma matchingBlocksSum_empty (s : List Char) (v : Nat) :
    ∀ fuel, matchingBlocksSum s s fuel (v, v, v, v) = 0 := by
  intro fuel
  cases fuel with
  | zero => rfl
  | succ f =>
    simp only [matchingBlocksSum]
    rw [findLongestMatch_empty_range s v]
    rw [if_pos rfl]

lemma matchingBlocksSum_succ (s t : List Char) (f : Nat)
    (alo ahi blo bhi : Nat) :
    matchingBlocksSum s t (f + 1) (alo, ahi, blo, bhi) =
      (let m := findLongestMatch s t alo ahi blo bhi
       if m.2.2 = 0 then 0
       else
         matchingBlocksSum s t f (alo, m.1, blo, m.2.1) + m.2.2 +
           matchingBlocksSum s t f (m.1 + m.2.2, ahi, m.2.1 + m.2.2, bhi)) := rfl

lemma matchingBlocksSum_self (s : List Char) (hn : s.length ≠ 0) :
    ∀ fuel, 2 ≤ fuel →
      matchingBlocksSum s s fuel (0, s.length, 0, s.length) = s.length := by
  intro fuel hf
  obtain ⟨f, rfl⟩ : ∃ f, fuel = f + 2 := ⟨fuel - 2, by omega⟩
  rw [matchingBlocksSum_succ]
  simp only [findLongestMatch_self s]
  rw [if_neg (show ¬ ((0, 0, s.length) : Nat × Nat × Nat).2.2 = 0 from hn)]
  have h1 : matchingBlocksSum s s (f + 1) (0, 0, 0, 0) = 0 :=
    matchingBlocksSum_empty s 0 (f + 1)
  have h2 : matchingBlocksSum s s (f + 1)
      (0 + s.length, s.length, 0 + s.length, s.length) = 0 := by
    have e : 0 + s.length = s.length := by omega
    rw [e]
    exact matchingBlocksSum_empty s s.length (f + 1)
  rw [h1, h2]
  omega

lemma ratioQ_self (s : List Char) : ratioQ s s = 1 := by
  by_cases h : s.length = 0
  · simp [ratioQ, h]
  · simp only [ratioQ]
    rw [if_neg (by omega)]
    rw [matchingBlocksSum_self s h (s.length + s.length + 1) (by omega)]
    have hq : (s.length : ℚ) ≠ 0 := by
      exact_mod_cast h
    rw [show ((s.length + s.length : Nat) : ℚ) = (s.length : ℚ) + (s.length : ℚ) by push_cast; ring]
    field_simp
    ring

lemma collectSimilar_mem (target : String) (th : ℚ) :
    ∀ (lines : List String) (i0 : Nat) (e : Nat × String × ℚ),
      e ∈ collectSimilar target th lines i0 →
      i0 ≤ e.1 ∧ lines[e.1 - i0]? = some e.2.1 ∧
      e.2.2 = ratioQ (pyLower target).data (pyLower e.2.1).data ∧ e.2.2 ≥ th := by
  intro lines
  induction lines with
  | nil => intro i0 e h; simp [collectSimilar] at h
  | cons l ls ih =>
    intro i0 e h
    simp only [collectSimilar] at h
    split at h
    · next hge =>
      rcases List.mem_cons.mp h with he | he
      · subst he
        refine ⟨le_refl _, ?_, rfl, hge⟩
        simp
      · have t := ih (i0 + 1) e he
        refine ⟨by omega, ?_, t.2.2.1, t.2.2.2⟩
        have h1 : e.1 - i0 = (e.1 - (i0 + 1)) + 1 := by omega
        rw [h1]
        simpa using t.2.1
    · have t := ih (i0 + 1) e h
      refine ⟨by omega, ?_, t.2.2.1, t.2.2.2⟩
      have h1 : e.1 - i0 = (e.1 - (i0 + 1)) + 1 := by omega
      rw [h1]
      simpa using t.2.1

lemma collectSimilar_ne_nil (target : String) (th : ℚ) :
    ∀ (lines : List String) (i0 i : Nat) (line : String),
      lines[i]? = some line →
      ratioQ (pyLower target).data (pyLower line).data ≥ th →
      collectSimilar target th lines i0 ≠ [] := by
  intro lines
  induction lines with
  | nil => intro i0 i line h _; simp at h
  | cons l ls ih =>
    intro i0 i line h hr
    cases i with
    | zero =>
      simp only [List.getElem?_cons_zero, Option.some.injEq] at h
      subst h
      simp only [collectSimilar]
      rw [if_pos hr]
      simp
    | succ j =>
      simp only [List.getElem?_cons_succ] at h
      simp only [collectSimilar]
      split
      · simp
      · exact ih (i0 + 1) j line h hr

lemma mem_insertByScore (x e : Nat × String × ℚ) :
    ∀ l, e ∈ insertByScore x l → e = x ∨ e ∈ l := by
  intro l
  induction l with
  | nil => intro h; simpa [insertByScore] using h
  | cons y ys ih =>
    intro h
    simp only [insertByScore] at h
    split at h
    · rcases List.mem_cons.mp h with he | he
      · exact Or.inr (by simp [he])
      · rcases ih he with he2 | he2
        · exact Or.inl he2
        · exact Or.inr (by simp [he2])
    · rcases List.mem_cons.mp h with he | he
      · exact Or.inl he
      · exact Or.inr he

lemma sortByScoreDesc_ne_nil : ∀ l, l ≠ [] → sortByScoreDesc l ≠ [] := by
  intro l h
  cases l with
  | nil => exact absurd rfl h
  | cons x xs =>
    simp only [sortByScoreDesc]
    cases hs : sortByScoreDesc xs with
    | nil => simp [insertByScore]
    | cons y ys =>
      simp only [insertByScore]
      split <;> simp

lemma mem_sortByScoreDesc (e : Nat × String × ℚ) :
    ∀ l, e ∈ sortByScoreDesc l → e ∈ l := by
  intro l
  induction l with
  | nil => intro h; simpa [sortByScoreDesc] using h
  | cons x xs ih =>
    intro h
    simp only [sortByScoreDesc] at h
    rcases mem_insertByScore x e _ h with he | he
    · simp [he]
    · simp [ih he]


/-- **C6.** `smart_append` with `avoid_duplicates=true` on a file with
non-empty existing content: if some existing line has similarity at least
`0.8` to the new content (case-insensitively, via the normalized
`SequenceMatcher` ratio), the call returns a duplicate refusal naming a
matching line's 1-based number, its text and its similarity score, and the
store is unchanged (no write occurs); in particular an existing line equal
to the new content up to letter case always triggers the refusal. -/
theorem smart_append_duplicate_refusal (st : Settings) (ts : String)
    (fs : FS) (bucket filename content existing : String)
    (sectionHint : Option String)
    (hread : fs.get (fileKey ts bucket filename) = some existing)
    (hne : existing ≠ "") :
    ((∃ (i : Nat) (line : String), (splitStr '\n' existing)[i]? = some line ∧
        ratioQ (pyLower content).data (pyLower line).data ≥ 4 / 5) →
      ∃ n txt sim,
        smart_append st ts fs bucket filename content sectionHint true =
          .ok (fs, .duplicateRefusal n txt sim) ∧
        1 ≤ n ∧ (splitStr '\n' existing)[n - 1]? = some txt ∧
        sim = ratioQ (pyLower content).data (pyLower txt).data ∧
        sim ≥ 4 / 5) ∧
    ((∃ (i : Nat) (line : String), (splitStr '\n' existing)[i]? = some line ∧
        pyLower line = pyLower content) →
      ∃ n txt sim,
        smart_append st ts fs bucket filename content sectionHint true =
          .ok (fs, .duplicateRefusal n txt sim) ∧
        1 ≤ n ∧ (splitStr '\n' existing)[n - 1]? = some txt ∧
        sim = ratioQ (pyLower content).data (pyLower txt).data ∧
        sim ≥ 4 / 5) := by
  have main : (∃ (i : Nat) (line : String), (splitStr '\n' existing)[i]? = some line ∧
      ratioQ (pyLower content).data (pyLower line).data ≥ 4 / 5) →
      ∃ n txt sim,
        smart_append st ts fs bucket filename content sectionHint true =
          .ok (fs, .duplicateRefusal n txt sim) ∧
        1 ≤ n ∧ (splitStr '\n' existing)[n - 1]? = some txt ∧
        sim = ratioQ (pyLower content).data (pyLower txt).data ∧
        sim ≥ 4 / 5 := by
    rintro ⟨i, line, hline, hsim⟩
    have hcne : collectSimilar content (4 / 5) (splitStr '\n' existing) 1 ≠ [] :=
      collectSimilar_ne_nil content (4 / 5) _ 1 i line hline hsim
    have hfne : find_similar_lines existing content (4 / 5) ≠ [] :=
      sortByScoreDesc_ne_nil _ hcne
    cases hfind : find_similar_lines existing content (4 / 5) with
    | nil => exact absurd hfind hfne
    | cons e rest =>
      obtain ⟨n, txt, sim⟩ := e
      have hmem : (n, txt, sim) ∈
          collectSimilar content (4 / 5) (splitStr '\n' existing) 1 := by
        apply mem_sortByScoreDesc
        show (n, txt, sim) ∈ find_similar_lines existing content (4 / 5)
        rw [hfind]
        exact List.mem_cons_self _ _
      have hprops := collectSimilar_mem content (4 / 5) _ 1 _ hmem
      refine ⟨n, txt, sim, ?_, hprops.1, hprops.2.1, hprops.2.2.1, hprops.2.2.2⟩
      simp only [smart_append, hread, Option.getD_some]
      rw [if_pos (by simp [hne])]
      rw [hfind]
  refine ⟨main, ?_⟩
  rintro ⟨i, line, hline, heq⟩
  apply main
  refine ⟨i, line, hline, ?_⟩
  rw [heq, ratioQ_self]
  norm_num

/-- Concrete run of the duplicate-refusal theorem: existing line
`"Buy milk"`, new content `"buy milk"` (equal up to case). -/
theorem smart_append_duplicate_refusal_witness :
    ∃ n txt sim,
      smart_append defaultSettings ts0
        [(fileKey ts0 "general" "notes.md", "Buy milk")]
        "general" "notes.md" "buy milk" none true =
        .ok ([(fileKey ts0 "general" "notes.md", "Buy milk")],
          .duplicateRefusal n txt sim) ∧
      1 ≤ n ∧ (splitStr '\n' "Buy milk")[n - 1]? = some txt ∧
      sim = ratioQ (pyLower "buy milk").data (pyLower txt).data ∧
      sim ≥ 4 / 5 :=
  (smart_append_duplicate_refusal defaultSettings ts0
    [(fileKey ts0 "general" "notes.md", "Buy milk")]
    "general" "notes.md" "buy milk" "Buy milk" none rfl (by decide)).2
    ⟨0, "Buy milk", by decide, by decide⟩

end MemoraBot
